import Mathlib

/-!
Verification development for the DailyProgrammer #201 probability solver
(`probability.py`).  The Python program is shallowly embedded below:

* `Variable` / `Statement` model the two classes (a variable with a
  polarity, and a frozenset of such literals).  Probabilities (Python
  floats) are modelled as rationals; only exact field arithmetic on the
  stored values is performed by the program.
* `powerset` / `allSymbols` / `allStatements` model the universe
  construction inside `solve`.
* `buildChildren` models the `children` defaultdict built from
  `itertools.combinations(all_statements, 2)`.
* The known-value dict is modelled as an association list with unique
  keys (`kfind` / `kset` mirror dict lookup and dict assignment,
  including insertion order); `initKnown` models the initialisation
  loop over `input_data`.
* `complementUpdates`, `processSpan`, `processParent`, `partitionPhase`
  and `onePass` model one iteration of the `while has_changed` loop;
  `solveLoop` iterates it with a fuel argument that is proved below to
  exceed the number of passes the Python loop can perform, so `solve`
  computes the same fixed point as the unbounded loop.  Python iterates
  a set (`sorted(children[parent], key=len)`) whose internal pre-order
  is unspecified; the embedding models each set as a duplicate-free
  list in insertion order and sorts it by literal count, which is
  immaterial for the properties proved here.  The `print` tracing of
  the original is omitted.
-/

structure Variable where
  token : String
  negation : Bool
  deriving DecidableEq

/-- Models `Variable.__invert__`: same token, flipped polarity. -/
def Variable.invert (v : Variable) : Variable := ⟨v.token, !v.negation⟩

/-- Models `Variable.is_exclusion`. -/
def Variable.is_exclusion (v : Variable) : Bool := v.negation

structure Statement where
  «variables» : Finset Variable
  deriving DecidableEq

/-- Models `Statement.__contains__(self, other)` for a `Statement`
argument, i.e. the Python expression `other in self`:
`all(e in other for e in self)`. -/
def Statement.contains (self other : Statement) : Bool :=
  decide (∀ e ∈ self.variables, e ∈ other.variables)

/-- Models `Statement.is_valid`: `all(~e not in self for e in self)`. -/
def Statement.is_valid (s : Statement) : Bool :=
  decide (∀ e ∈ s.variables, e.invert ∉ s.variables)

/-- Models `itertools.combinations(s, r)` (as a list of length-`r`
sublists, in the same order). -/
def combinations {α : Type} : Nat → List α → List (List α)
  | 0, _ => [[]]
  | _ + 1, [] => []
  | r + 1, x :: xs => (combinations r xs).map (fun c => x :: c) ++ combinations (r + 1) xs

/-- Models the program's `powerset(iterable, minimum=1)`:
`chain.from_iterable(combinations(s, r) for r in range(1, len(s)+1))`. -/
def powerset {α : Type} (l : List α) : List (List α) :=
  (List.range' 1 l.length).flatMap (fun r => combinations r l)

/-- Models `all_symbols = symbols + [~s for s in symbols]`. -/
def allSymbols (symbols : List Variable) : List Variable :=
  symbols ++ symbols.map Variable.invert

/-- Models
`all_statements = [v for v in (Statement(c) for c in powerset(all_symbols)) if v.is_valid()]`. -/
def allStatements (symbols : List Variable) : List Statement :=
  ((powerset (allSymbols symbols)).map (fun v => Statement.mk v.toFinset)).filter
    (fun s => s.is_valid)

/-- The known-value dict, as an association list (unique keys in every
reachable state; insertion order preserved, as in a Python dict). -/
abbrev KMap := List (Statement × ℚ)

/-- Dict lookup. -/
def kfind : KMap → Statement → Option ℚ
  | [], _ => none
  | p :: rest, s => if p.1 = s then some p.2 else kfind rest s

/-- Dict assignment `m[s] = v`: overwrite in place if present, else
append (Python dicts keep insertion order). -/
def kset : KMap → Statement → ℚ → KMap
  | [], s, v => [(s, v)]
  | p :: rest, s, v => if p.1 = s then (s, v) :: rest else p :: kset rest s v

/-- Models `known.update(updates)`. -/
def dictUpdate (m upd : KMap) : KMap := upd.foldl (fun acc p => kset acc p.1 p.2) m

/-- Models the initialisation loop
`for s, value in input_data: known[Statement(s)] = value`. -/
def initKnown (input_data : List (Finset Variable × ℚ)) : KMap :=
  input_data.foldl (fun m p => kset m (Statement.mk p.1) p.2) []

/-- The set of keys of a known-value map. -/
def keysF (m : KMap) : Finset Statement := (m.map Prod.fst).toFinset

/-- The statement on the inverted literal set; on a single-literal
statement `P(e)` this is the complement statement
`Statement([~list(statement.variables)[0]])` the solver writes. -/
def invStatement (s : Statement) : Statement := Statement.mk (s.variables.image Variable.invert)

/-- The body of the complement-rule loop for one entry `p` of `known`:
if the key has exactly one literal and the statement on the inverted
literal is not a key of `known`, record it in `updates` with value
`1 - known[statement]`. -/
def complementStep (known : KMap) (updates : KMap) (p : Statement × ℚ) : KMap :=
  if p.1.variables.card = 1 then
    let s := invStatement p.1
    if kfind known s = none then kset updates s (1 - p.2) else updates
  else updates

/-- Models the complement-rule loop of one pass (the `updates` dict
after the loop `for statement in known: ...`). -/
def complementUpdates (known : KMap) : KMap :=
  known.foldl (complementStep known) []

/-- Models `itertools.combinations(l, 2)`. -/
def pairsComb {α : Type} : List α → List (α × α)
  | [] => []
  | x :: xs => xs.map (fun y => (x, y)) ++ pairsComb xs

/-- `s.add(x)` on a Python set modelled as a duplicate-free list. -/
def setAdd (x : Statement) (l : List Statement) : List Statement :=
  if x ∈ l then l else l ++ [x]

/-- The body of the `children`-building loop for one pair `(x, y)`:
`if x != y: if x in y: children[y].add(x); if y in x: children[x].add(y)`. -/
def childStep (ch : Statement → List Statement) (p : Statement × Statement) :
    Statement → List Statement :=
  if p.1 ≠ p.2 then
    let ch1 := if Statement.contains p.2 p.1
      then (fun z => if z = p.2 then setAdd p.1 (ch z) else ch z) else ch
    if Statement.contains p.1 p.2
      then (fun z => if z = p.1 then setAdd p.2 (ch1 z) else ch1 z) else ch1
  else ch

/-- Models the `children` structure:
`for x, y in combinations(all_statements, r=2): ...` (see `childStep`;
the final `children[s] = children[s]` normalisation is the identity on
this total-function model).  Each Python set is modelled as a
duplicate-free list. -/
def buildChildren (l : List Statement) : Statement → List Statement :=
  (pairsComb l).foldl childStep (fun _ => [])

/-- Models `frozenset(s if not s.is_exclusion() else ~s for s in g)`. -/
def spanOf (g : Statement) : Finset Variable :=
  g.variables.image (fun s => if s.is_exclusion then s.invert else s)

/-- One step of filling the `spans` defaultdict (append `g` under key
`k`, keeping dict insertion order). -/
def addToSpans (k : Finset Variable) (g : Statement) :
    List (Finset Variable × List Statement) → List (Finset Variable × List Statement)
  | [] => [(k, [g])]
  | p :: rest => if p.1 = k then (p.1, p.2 ++ [g]) :: rest else p :: addToSpans k g rest

/-- Models building `spans` from a rank group and taking
`spans.values()`. -/
def spansOf (group : List Statement) : List (List Statement) :=
  (group.foldl (fun acc g => addToSpans (spanOf g) g acc) []).map Prod.snd

/-- Insertion step of the embedding's sort by literal count. -/
def insertByCard (x : Statement) : List Statement → List Statement
  | [] => [x]
  | y :: ys => if x.variables.card ≤ y.variables.card then x :: y :: ys else y :: insertByCard x ys

/-- Models `sorted(children[parent], key=lambda s: len(s.variables))`
(ascending by literal count; the set's internal pre-order is
unspecified in Python, this embedding sorts `Finset.toList`). -/
def sortByCard : List Statement → List Statement
  | [] => []
  | x :: xs => insertByCard x (sortByCard xs)

/-- Models `itertools.groupby(subsets, key)`: maximal runs of
consecutive elements with equal key. -/
def groupByKey {α : Type} (key : α → Nat) : List α → List (List α)
  | [] => []
  | x :: xs =>
    match groupByKey key xs with
    | [] => [[x]]
    | [] :: rest => [x] :: [] :: rest
    | (y :: ys) :: rest =>
      if key x = key y then (x :: y :: ys) :: rest else [x] :: (y :: ys) :: rest

instance : Inhabited Statement := ⟨⟨∅⟩⟩

/-- Models the body of `for span in spans.values()`: compute the
unknown members of the span group, then apply difference mode
(`parent in known and len(unknowns) == 1`, writing
`known[unknowns[0]] = known[parent] - sum(known[e] for e != unknown)`)
and union mode (`parent not in known and not unknowns`, writing
`known[parent] = sum(known[e] for e in span)`), in that order, setting
the `has_changed` flag on every write.  `Option.getD 0` stands for the
dict accesses `known[...]`, which the guards ensure never miss. -/
def processSpan (parent : Statement) (st : KMap × Bool) (span : List Statement) : KMap × Bool :=
  let m := st.1
  let unknowns := span.filter (fun e => (kfind m e).isNone)
  let st1 :=
    if (kfind m parent).isSome = true ∧ unknowns.length = 1 then
      let u := unknowns.headI
      let total :=
        ((span.filter (fun e => decide (e ≠ u))).map (fun e => (kfind m e).getD 0)).sum
      (kset m u ((kfind m parent).getD 0 - total), true)
    else st
  if kfind st1.1 parent = none ∧ unknowns = [] then
    (kset st1.1 parent ((span.map (fun e => (kfind st1.1 e).getD 0)).sum), true)
  else st1

/-- Models the body of `for parent in reversed(all_statements)`: sort
the recorded children by rank, group by rank, group each rank by span,
and process every span group. -/
def processParent (parent : Statement) (cs : List Statement) (st : KMap × Bool) : KMap × Bool :=
  let subsets := sortByCard cs
  let groups := groupByKey (fun s : Statement => s.variables.card) subsets
  groups.foldl
    (fun st2 group => (spansOf group).foldl (fun st3 span => processSpan parent st3 span) st2) st

/-- The partition-rule half of one pass of the solver loop. -/
def partitionPhase (univ : List Statement) (children : Statement → List Statement)
    (st : KMap × Bool) : KMap × Bool :=
  univ.reverse.foldl (fun st2 parent => processParent parent (children parent) st2) st

/-- One full pass of the `while has_changed` loop: the complement rule
(collected in `updates`, then `known.update(updates)`), then the
partition rule over all parents; the boolean is `has_changed`. -/
def onePass (univ : List Statement) (children : Statement → List Statement) (known : KMap) :
    KMap × Bool :=
  let upd := complementUpdates known
  partitionPhase univ children (dictUpdate known upd, !upd.isEmpty)

/-- The solver loop, with fuel; it stops after the first pass that
reports no change (as the Python `while has_changed` loop does). -/
def solveLoop (univ : List Statement) (children : Statement → List Statement) :
    Nat → KMap → KMap
  | 0, m => m
  | fuel + 1, m =>
    let r := onePass univ children m
    if r.2 then solveLoop univ children fuel r.1 else r.1

/-- Models `solve` (without the tracing output): initialise the known
map, build the universe and the children structure, and iterate to the
fixed point.  The fuel is proved below (`solveLoop_eq_iterate` and the
termination theorem) to exceed the number of passes the Python loop
executes, so this equals the result of the unbounded loop. -/
def solve (symbols : List Variable) (input_data : List (Finset Variable × ℚ)) : KMap :=
  let known := initKnown input_data
  let univ := allStatements symbols
  let children := buildChildren univ
  solveLoop univ children (univ.length + input_data.length + 1) known

/-- The well-formedness of the parsed variable list guaranteed by
`process_input`: distinct tokens, all created with `negation=False`. -/
def SymsOK (symbols : List Variable) : Prop :=
  (symbols.map Variable.token).Nodup ∧ ∀ v ∈ symbols, v.negation = false

/-- The finite set of the `2n` literals. -/
def litFinset (symbols : List Variable) : Finset Variable := (allSymbols symbols).toFinset

/-- Validity of a literal set (the content of `Statement.is_valid`). -/
def ValidSet (S : Finset Variable) : Prop := ∀ e ∈ S, e.invert ∉ S

instance : DecidablePred ValidSet := fun _ => Finset.decidableDforallFinset

/-- All valid subsets (including the empty one) of the literal set. -/
def validSubsets (symbols : List Variable) : Finset (Finset Variable) :=
  (litFinset symbols).powerset.filter ValidSet

/-- The complements of the single-literal keys of a known map. -/
def invSF (m : KMap) : Finset Statement :=
  ((keysF m).filter (fun s => s.variables.card = 1)).image invStatement

/-- A known map whose keys are pairwise distinct (true of every map
the program builds, since Python dict keys are unique). -/
def KeysNodup (m : KMap) : Prop := (m.map Prod.fst).Nodup

/-- Abstract description of what one solver step may do to the
`(known, has_changed)` state: it either leaves it untouched, or raises
the flag while strictly growing the key set with new keys drawn from
`A`, preserving every existing entry. -/
def Evolves (A : Finset Statement) (st st' : KMap × Bool) : Prop :=
  st' = st ∨
    (st'.2 = true ∧ (∀ s v, kfind st.1 s = some v → kfind st'.1 s = some v) ∧
      keysF st.1 ⊂ keysF st'.1 ∧ keysF st'.1 ⊆ keysF st.1 ∪ A)

/-- Every single-literal key of `m` is either a universe statement or
has its complement already recorded.  This holds after every full pass
(the complement rule records all missing complements, and the
partition rule only ever writes universe statements). -/
def SingletonClosed (univ : List Statement) (m : KMap) : Prop :=
  ∀ s ∈ keysF m, s.variables.card = 1 →
    s ∈ univ.toFinset ∨ invStatement s ∈ keysF m

/-- Sample variables used for concrete instances below. -/
def varA : Variable := ⟨"A", false⟩

def varB : Variable := ⟨"B", false⟩

def stA : Statement := Statement.mk {varA}

def stB : Statement := Statement.mk {varB}

def stAB : Statement := Statement.mk {varA, varB}

def stAnB : Statement := Statement.mk {varA, varB.invert}

/-! ### Basic lemmas about the dict model -/

theorem kfind_kset (m : KMap) (k : Statement) (v : ℚ) (s : Statement) :
    kfind (kset m k v) s = if k = s then some v else kfind m s := by
  induction m with
  | nil => simp [kset, kfind]
  | cons p rest ih =>
    by_cases hpk : p.1 = k
    · rw [kset, if_pos hpk]
      by_cases hks : k = s
      · rw [kfind, if_pos hks, if_pos hks]
      · have hps : ¬ p.1 = s := fun h => hks (hpk.symm.trans h)
        rw [kfind, if_neg hks, if_neg hks, kfind, if_neg hps]
    · rw [kset, if_neg hpk]
      by_cases hps : p.1 = s
      · have hks : ¬ k = s := fun h => hpk (hps.trans h.symm)
        rw [kfind, if_pos hps, if_neg hks, kfind, if_pos hps]
      · rw [kfind, if_neg hps, ih, kfind, if_neg hps]

theorem kfind_eq_none_iff (m : KMap) (s : Statement) :
    kfind m s = none ↔ s ∉ keysF m := by
  induction m with
  | nil => simp [kfind, keysF]
  | cons p rest ih =>
    by_cases hps : p.1 = s
    · simp [kfind, keysF, hps]
    · simp [kfind, keysF, hps, ih]
      intro h
      exact fun h2 => hps h2.symm

theorem mem_keysF_iff (m : KMap) (s : Statement) :
    s ∈ keysF m ↔ ∃ v, kfind m s = some v := by
  constructor
  · intro h
    cases hk : kfind m s with
    | none => exact absurd h ((kfind_eq_none_iff m s).mp hk)
    | some v => exact ⟨v, rfl⟩
  · rintro ⟨v, hv⟩
    by_contra hs
    rw [(kfind_eq_none_iff m s).mpr hs] at hv
    exact Option.noConfusion hv

theorem mem_of_kfind_eq_some {m : KMap} {s : Statement} {v : ℚ}
    (h : kfind m s = some v) : (s, v) ∈ m := by
  induction m with
  | nil => simp [kfind] at h
  | cons p rest ih =>
    by_cases hps : p.1 = s
    · rw [kfind, if_pos hps] at h
      have hpv : p = (s, v) := by
        cases p with
        | mk a b =>
          simp at hps h
          simp [hps, h]
      rw [← hpv]
      exact List.mem_cons_self p rest
    · rw [kfind, if_neg hps] at h
      exact List.mem_cons_of_mem _ (ih h)

theorem kfind_eq_some_of_mem_nodup {m : KMap} {s : Statement} {v : ℚ}
    (hnd : KeysNodup m) (h : (s, v) ∈ m) : kfind m s = some v := by
  induction m with
  | nil => simp at h
  | cons p rest ih =>
    rcases List.mem_cons.mp h with h1 | h2
    · simp [kfind, ← h1]
    · have hps : p.1 ≠ s := by
        intro hps
        have : s ∈ rest.map Prod.fst := List.mem_map.mpr ⟨(s, v), h2, rfl⟩
        rw [← hps] at this
        exact (List.nodup_cons.mp hnd).1 this
      simp [kfind, hps]
      exact ih (List.nodup_cons.mp hnd).2 h2

theorem keysF_kset (m : KMap) (k : Statement) (v : ℚ) :
    keysF (kset m k v) = insert k (keysF m) := by
  induction m with
  | nil => simp [kset, keysF]
  | cons p rest ih =>
    by_cases hpk : p.1 = k
    · simp [kset, keysF, hpk]
    · rw [kset, if_neg hpk]
      unfold keysF at ih ⊢
      simp only [List.map_cons, List.toFinset_cons, ih]
      rw [Finset.Insert.comm]

theorem mem_keys_kset (m : KMap) (k : Statement) (v : ℚ) (a : Statement) :
    a ∈ (kset m k v).map Prod.fst ↔ a = k ∨ a ∈ m.map Prod.fst := by
  have h := keysF_kset m k v
  have h1 : a ∈ keysF (kset m k v) ↔ a ∈ insert k (keysF m) := by rw [h]
  simpa [keysF, List.mem_toFinset] using h1

theorem keysNodup_kset {m : KMap} (hnd : KeysNodup m) (k : Statement) (v : ℚ) :
    KeysNodup (kset m k v) := by
  induction m with
  | nil => simp [kset, KeysNodup]
  | cons p rest ih =>
    have hn := List.nodup_cons.mp hnd
    by_cases hpk : p.1 = k
    · rw [kset, if_pos hpk]
      unfold KeysNodup at hnd ⊢
      simp only [List.map_cons, List.nodup_cons] at hnd ⊢
      rw [← hpk]
      exact hnd
    · have ihr := ih hn.2
      rw [kset, if_neg hpk]
      unfold KeysNodup at ihr ⊢
      simp only [List.map_cons, List.nodup_cons]
      refine ⟨?_, ihr⟩
      intro hmem
      rcases (mem_keys_kset rest k v p.1).mp hmem with h1 | h2
      · exact hpk h1
      · exact hn.1 h2

theorem length_kset_le (m : KMap) (k : Statement) (v : ℚ) :
    (kset m k v).length ≤ m.length + 1 := by
  induction m with
  | nil => simp [kset]
  | cons p rest ih =>
    by_cases hpk : p.1 = k
    · simp [kset, hpk]
    · simp only [kset, if_neg hpk, List.length_cons]
      omega

/-! ### Basic lemmas about `Variable`, `Statement` and complements -/

theorem Variable.invert_invert (v : Variable) : v.invert.invert = v := by
  cases v with
  | mk t n => simp [Variable.invert]

theorem Variable.invert_injective : Function.Injective Variable.invert := by
  intro a b h
  have := congrArg Variable.invert h
  rwa [Variable.invert_invert, Variable.invert_invert] at this

theorem Variable.invert_ne (v : Variable) : v.invert ≠ v := by
  cases v with
  | mk t n =>
    intro h
    have := congrArg Variable.negation h
    simp [Variable.invert] at this

theorem Statement.mk_injective : Function.Injective Statement.mk := by
  intro a b h
  cases h
  rfl

theorem Statement.contains_iff_subset (A B : Statement) :
    Statement.contains A B = true ↔ A.variables ⊆ B.variables := by
  simp [Statement.contains, Finset.subset_iff]

theorem Statement.is_valid_iff (s : Statement) :
    s.is_valid = true ↔ ValidSet s.variables := by
  simp [Statement.is_valid, ValidSet]

theorem invStatement_mk_singleton (e : Variable) :
    invStatement (Statement.mk {e}) = Statement.mk {e.invert} := by
  simp [invStatement]

theorem invStatement_invStatement (s : Statement) :
    invStatement (invStatement s) = s := by
  cases s with
  | mk S =>
    simp only [invStatement, Finset.image_image]
    have : Variable.invert ∘ Variable.invert = id := by
      funext v
      simp [Variable.invert_invert]
    rw [this, Finset.image_id]

theorem card_invStatement (s : Statement) :
    (invStatement s).variables.card = s.variables.card := by
  simp [invStatement, Finset.card_image_of_injective _ Variable.invert_injective]

theorem vars_eq_singleton_of_card_one {s : Statement}
    (h : s.variables.card = 1) : ∃ e, s = Statement.mk {e} := by
  rcases Finset.card_eq_one.mp h with ⟨e, he⟩
  exact ⟨e, by cases s; simp_all⟩

/-! ### Claim C3: the containment test -/

/-- C3 counterexample: with `A = P(a)` and `B = P(a, b)`, every literal
of `A` appears in `B`, yet the Python expression `A in B`
(`Statement.contains B A` in this embedding) is `False`.  So the
containment test is not "every literal of A appears in B". -/
theorem c3_contains_counterexample :
    stA.variables ⊆ stAB.variables ∧ Statement.contains stAB stA = false := by
  constructor
  · decide
  · decide

/-- C3 amended: the Python expression `A in B` (= `contains B A`) holds
iff every literal of `B` appears in `A` — the reverse direction of the
claim. -/
theorem c3_contains_amended (A B : Statement) :
    Statement.contains B A = true ↔ ∀ e ∈ B.variables, e ∈ A.variables := by
  simp [Statement.contains]

/-! ### Claims C10 and C6: initialisation of the known-value mapping -/

theorem kfind_initKnown (l : List (Finset Variable × ℚ)) (st : Statement) :
    kfind (initKnown l) st =
      (l.filterMap (fun p => if Statement.mk p.1 = st then some p.2 else none)).getLast? := by
  induction l using List.reverseRecOn with
  | nil => simp [initKnown, kfind]
  | append_singleton l p ih =>
    have hstep : initKnown (l ++ [p]) = kset (initKnown l) (Statement.mk p.1) p.2 := by
      unfold initKnown
      rw [List.foldl_append]
      rfl
    rw [hstep, kfind_kset]
    by_cases h : Statement.mk p.1 = st
    · rw [if_pos h, List.filterMap_append]
      simp [h, List.getLast?_concat]
    · rw [if_neg h, List.filterMap_append]
      simp [h, ih]

theorem keysNodup_initKnown (l : List (Finset Variable × ℚ)) :
    KeysNodup (initKnown l) := by
  suffices h : ∀ (l : List (Finset Variable × ℚ)) (m : KMap), KeysNodup m →
      KeysNodup (l.foldl (fun m p => kset m (Statement.mk p.1) p.2) m) by
    exact h l [] (by simp [KeysNodup])
  intro l
  induction l with
  | nil => intro m hm; exact hm
  | cons p rest ih =>
    intro m hm
    exact ih _ (keysNodup_kset hm _ _)

theorem length_initKnown_le (l : List (Finset Variable × ℚ)) :
    (initKnown l).length ≤ l.length := by
  suffices h : ∀ (l : List (Finset Variable × ℚ)) (m : KMap),
      (l.foldl (fun m p => kset m (Statement.mk p.1) p.2) m).length ≤ m.length + l.length by
    simpa using h l []
  intro l
  induction l with
  | nil => intro m; simp
  | cons p rest ih =>
    intro m
    calc ((p :: rest).foldl (fun m p => kset m (Statement.mk p.1) p.2) m).length
        ≤ (kset m (Statement.mk p.1) p.2).length + rest.length := ih _
      _ ≤ m.length + 1 + rest.length := by
          exact Nat.add_le_add_right (length_kset_le m _ _) _
      _ = m.length + (p :: rest).length := by simp; omega

/-- C10: initialising the known-value mapping is dict assignment in
input order — for any query statement the recorded value is that of
the *last* input occurrence of that statement (earlier occurrences are
discarded), and initialisation is a total function (it raises no
error). -/
theorem c10_duplicate_input_last_write_wins (input_data : List (Finset Variable × ℚ))
    (st : Statement) :
    kfind (initKnown input_data) st =
      (input_data.filterMap
        (fun p => if Statement.mk p.1 = st then some p.2 else none)).getLast? :=
  kfind_initKnown input_data st

/-- C6 counterexample: the invalid statement `P(A, not A)` supplied as
input with value `1/2` is *not* rejected — it is recorded in the
known-value mapping even though `is_valid` is `False` (no validity
check is applied to the input in `solve`). -/
theorem c6_invalid_input_counterexample :
    (Statement.mk {varA, varA.invert}).is_valid = false ∧
      kfind (initKnown [({varA, varA.invert}, 7)])
        (Statement.mk {varA, varA.invert}) = some 7 := by
  constructor
  · decide
  · decide

/-- C6 amended: every input pair enters the known-value mapping, with
no validity check whatsoever — in particular a statement asserting a
variable together with its negation is recorded rather than rejected. -/
theorem c6_no_validity_check (l : List (Finset Variable × ℚ)) (s : Finset Variable) (v : ℚ)
    (h : (s, v) ∈ l) : ∃ w, kfind (initKnown l) (Statement.mk s) = some w := by
  rw [kfind_initKnown]
  have hv : v ∈ l.filterMap
      (fun p => if Statement.mk p.1 = Statement.mk s then some p.2 else none) :=
    List.mem_filterMap.mpr ⟨(s, v), h, by simp⟩
  have hne := List.ne_nil_of_mem hv
  have hsome := List.getLast?_isSome.mpr hne
  rcases Option.isSome_iff_exists.mp hsome with ⟨w, hw⟩
  exact ⟨w, hw⟩

theorem mem_combinations {α : Type} :
    ∀ (l : List α) (r : Nat) (a : List α),
      a ∈ combinations r l ↔ a.Sublist l ∧ a.length = r := by
  intro l
  induction l with
  | nil =>
    intro r a
    cases r with
    | zero =>
      simp only [combinations, List.mem_singleton]
      constructor
      · rintro rfl; exact ⟨List.Sublist.refl _, rfl⟩
      · rintro ⟨h1, h2⟩
        exact List.eq_nil_of_length_eq_zero h2
    | succ r =>
      simp only [combinations, List.not_mem_nil, false_iff, not_and]
      intro h1 h2
      have := List.eq_nil_of_sublist_nil h1
      subst this
      simp at h2
  | cons x xs ih =>
    intro r a
    cases r with
    | zero =>
      simp only [combinations, List.mem_singleton]
      constructor
      · rintro rfl; exact ⟨List.nil_sublist _, rfl⟩
      · rintro ⟨h1, h2⟩
        exact List.eq_nil_of_length_eq_zero h2
    | succ r =>
      simp only [combinations, List.mem_append, List.mem_map]
      constructor
      · rintro (⟨b, hb, rfl⟩ | h)
        · rcases (ih r b).mp hb with ⟨h1, h2⟩
          exact ⟨List.cons_sublist_cons.mpr h1, by simp [h2]⟩
        · rcases (ih (r + 1) a).mp h with ⟨h1, h2⟩
          exact ⟨h1.trans (List.sublist_cons_self x xs), h2⟩
      · rintro ⟨h1, h2⟩
        rcases List.sublist_cons_iff.mp h1 with h | ⟨b, rfl, hb⟩
        · exact Or.inr ((ih (r + 1) a).mpr ⟨h, h2⟩)
        · simp at h2
          exact Or.inl ⟨b, (ih r b).mpr ⟨hb, h2⟩, rfl⟩

theorem nodup_combinations {α : Type} :
    ∀ (l : List α), l.Nodup → ∀ (r : Nat), (combinations r l).Nodup := by
  intro l
  induction l with
  | nil =>
    intro _ r
    cases r with
    | zero => simp [combinations]
    | succ r => simp [combinations]
  | cons x xs ih =>
    intro hnd r
    have hx : x ∉ xs := (List.nodup_cons.mp hnd).1
    have hxs : xs.Nodup := (List.nodup_cons.mp hnd).2
    cases r with
    | zero => simp [combinations]
    | succ r =>
      simp only [combinations]
      refine List.Nodup.append ?_ (ih hxs (r + 1)) ?_
      · exact (ih hxs r).map (fun a b h => by injection h)
      · intro a ha hb
        rcases List.mem_map.mp ha with ⟨b, _, rfl⟩
        have hsub := ((mem_combinations xs (r + 1) (x :: b)).mp hb).1
        have : x ∈ xs := hsub.subset (List.mem_cons_self x b)
        exact hx this

theorem mem_powerset {α : Type} (l : List α) (a : List α) :
    a ∈ powerset l ↔ a.Sublist l ∧ 1 ≤ a.length := by
  simp only [powerset, List.mem_flatMap, List.mem_range'_1]
  constructor
  · rintro ⟨r, ⟨h1, _⟩, hc⟩
    rcases (mem_combinations l r a).mp hc with ⟨hs, hl⟩
    exact ⟨hs, by omega⟩
  · rintro ⟨hs, hl⟩
    have hle := hs.length_le
    exact ⟨a.length, ⟨by omega, by omega⟩, (mem_combinations l a.length a).mpr ⟨hs, rfl⟩⟩

theorem nodup_powerset {α : Type} (l : List α) (hnd : l.Nodup) :
    (powerset l).Nodup := by
  unfold powerset
  rw [List.nodup_flatMap]
  refine ⟨fun r _ => nodup_combinations l hnd r, ?_⟩
  rw [List.pairwise_iff_forall_sublist]
  intro r1 r2 hsub
  have hnd2 : ([r1, r2] : List ℕ).Nodup := hsub.nodup (List.nodup_range' 1 l.length)
  have hne : r1 ≠ r2 := by simpa using (List.nodup_cons.mp hnd2).1
  intro a ha hb
  have h1 := ((mem_combinations l r1 a).mp ha).2
  have h2 := ((mem_combinations l r2 a).mp hb).2
  exact hne (h1.symm.trans h2)

theorem sublist_toFinset_inj {α : Type} [DecidableEq α] :
    ∀ (l a b : List α), l.Nodup → a.Sublist l → b.Sublist l →
      a.toFinset = b.toFinset → a = b := by
  intro l
  induction l with
  | nil =>
    intro a b _ ha hb _
    rw [List.eq_nil_of_sublist_nil ha, List.eq_nil_of_sublist_nil hb]
  | cons x xs ih =>
    intro a b hnd ha hb hab
    have hx : x ∉ xs := (List.nodup_cons.mp hnd).1
    have hxs : xs.Nodup := (List.nodup_cons.mp hnd).2
    rcases List.sublist_cons_iff.mp ha with ha' | ⟨a', rfl, ha'⟩
    · rcases List.sublist_cons_iff.mp hb with hb' | ⟨b', rfl, hb'⟩
      · exact ih a b hxs ha' hb' hab
      · exfalso
        have hxb : x ∈ b'.toFinset ∨ x = x := Or.inr rfl
        have : x ∈ (x :: b').toFinset := by simp
        rw [← hab] at this
        have : x ∈ a := by simpa using this
        exact hx (ha'.subset this)
    · rcases List.sublist_cons_iff.mp hb with hb' | ⟨b', rfl, hb'⟩
      · exfalso
        have : x ∈ (x :: a').toFinset := by simp
        rw [hab] at this
        have : x ∈ b := by simpa using this
        exact hx (hb'.subset this)
      · have hxa : x ∉ a'.toFinset := by
          simp only [List.mem_toFinset]
          exact fun h => hx (ha'.subset h)
        have hxb : x ∉ b'.toFinset := by
          simp only [List.mem_toFinset]
          exact fun h => hx (hb'.subset h)
        have : a'.toFinset = b'.toFinset := by
          have h1 : insert x a'.toFinset = insert x b'.toFinset := by
            simpa using hab
          have := congrArg (fun S => Finset.erase S x) h1
          simpa [Finset.erase_insert hxa, Finset.erase_insert hxb] using this
        rw [ih a' b' hxs ha' hb' this]

/-! ### The universe of statements (claim C5) -/

theorem mem_allSymbols (symbols : List Variable) (x : Variable) :
    x ∈ allSymbols symbols ↔ x ∈ symbols ∨ ∃ v ∈ symbols, x = v.invert := by
  simp only [allSymbols, List.mem_append, List.mem_map]
  constructor
  · rintro (h | ⟨v, hv, rfl⟩)
    · exact Or.inl h
    · exact Or.inr ⟨v, hv, rfl⟩
  · rintro (h | ⟨v, hv, rfl⟩)
    · exact Or.inl h
    · exact Or.inr ⟨v, hv, rfl⟩

theorem invert_mem_allSymbols {symbols : List Variable} {x : Variable}
    (h : x ∈ allSymbols symbols) : x.invert ∈ allSymbols symbols := by
  rcases (mem_allSymbols symbols x).mp h with h1 | ⟨v, hv, rfl⟩
  · exact (mem_allSymbols symbols _).mpr (Or.inr ⟨x, h1, rfl⟩)
  · rw [Variable.invert_invert]
    exact (mem_allSymbols symbols _).mpr (Or.inl hv)

theorem token_mem_of_mem_allSymbols {symbols : List Variable} {x : Variable}
    (h : x ∈ allSymbols symbols) : x.token ∈ symbols.map Variable.token := by
  rcases (mem_allSymbols symbols x).mp h with h1 | ⟨v, hv, rfl⟩
  · exact List.mem_map.mpr ⟨x, h1, rfl⟩
  · exact List.mem_map.mpr ⟨v, hv, rfl⟩

theorem nodup_allSymbols {symbols : List Variable} (h : SymsOK symbols) :
    (allSymbols symbols).Nodup := by
  have hsn : symbols.Nodup := h.1.of_map
  refine List.Nodup.append hsn (hsn.map Variable.invert_injective) ?_
  intro x hx hmem
  rcases List.mem_map.mp hmem with ⟨v, hv, rfl⟩
  have h1 : v.invert.negation = false := h.2 _ hx
  have h2 : v.negation = false := h.2 _ hv
  simp [Variable.invert, h2] at h1

theorem mem_allStatements (symbols : List Variable) (st : Statement) :
    st ∈ allStatements symbols ↔
      st.variables ⊆ litFinset symbols ∧ st.variables ≠ ∅ ∧ st.is_valid = true := by
  unfold allStatements
  rw [List.mem_filter, List.mem_map]
  constructor
  · rintro ⟨⟨c, hc, rfl⟩, hval⟩
    rcases (mem_powerset _ c).mp hc with ⟨hsub, hlen⟩
    refine ⟨?_, ?_, hval⟩
    · intro x hx
      simp only [List.mem_toFinset] at hx
      exact List.mem_toFinset.mpr (hsub.subset hx)
    · rcases c with _ | ⟨y, c'⟩
      · simp at hlen
      · simp
  · rintro ⟨hsub, hne, hval⟩
    refine ⟨⟨(allSymbols symbols).filter (fun x => decide (x ∈ st.variables)), ?_, ?_⟩, hval⟩
    · rw [mem_powerset]
      refine ⟨List.filter_sublist _, ?_⟩
      rcases Finset.nonempty_iff_ne_empty.mpr hne with ⟨x, hx⟩
      have hxl : x ∈ (allSymbols symbols).filter (fun x => decide (x ∈ st.variables)) := by
        rw [List.mem_filter]
        exact ⟨List.mem_toFinset.mp (hsub hx), by simpa using hx⟩
      have hpos := List.length_pos.mpr (List.ne_nil_of_mem hxl)
      omega
    · have : ((allSymbols symbols).filter
          (fun x => decide (x ∈ st.variables))).toFinset = st.variables := by
        ext y
        simp only [List.mem_toFinset, List.mem_filter, decide_eq_true_eq]
        constructor
        · rintro ⟨_, h2⟩; exact h2
        · intro hy
          exact ⟨List.mem_toFinset.mp (hsub hy), hy⟩
      rw [this]

theorem nodup_allStatements {symbols : List Variable} (h : SymsOK symbols) :
    (allStatements symbols).Nodup := by
  unfold allStatements
  refine List.Nodup.filter _ ?_
  refine List.Nodup.map_on ?_ (nodup_powerset _ (nodup_allSymbols h))
  intro a ha b hb hab
  have h1 := ((mem_powerset _ a).mp ha).1
  have h2 := ((mem_powerset _ b).mp hb).1
  have : a.toFinset = b.toFinset := by injection hab
  exact sublist_toFinset_inj _ a b (nodup_allSymbols h) h1 h2 this

theorem validSet_subset {S T : Finset Variable} (h : T ⊆ S) (hv : ValidSet S) : ValidSet T :=
  fun e he hi => hv e (h he) (h hi)

theorem filter_valid_powerset_insert_pair (L : Finset Variable) (a : Variable)
    (ha : a ∉ L) (hb : a.invert ∉ L) :
    ((insert a (insert a.invert L)).powerset.filter ValidSet).card =
      3 * (L.powerset.filter ValidSet).card := by
  have hab : a.invert ≠ a := Variable.invert_ne a
  have hE : (insert a (insert a.invert L)).powerset.filter ValidSet =
      (L.powerset.filter ValidSet) ∪
        ((L.powerset.filter ValidSet).image (insert a) ∪
          (L.powerset.filter ValidSet).image (insert a.invert)) := by
    ext S
    simp only [Finset.mem_filter, Finset.mem_powerset, Finset.mem_union, Finset.mem_image]
    constructor
    · rintro ⟨hsub, hval⟩
      by_cases haS : a ∈ S
      · have hbS : a.invert ∉ S := hval a haS
        refine Or.inr (Or.inl ⟨S.erase a, ⟨?_, validSet_subset (Finset.erase_subset _ _) hval⟩,
          Finset.insert_erase haS⟩)
        intro x hx
        rcases Finset.mem_erase.mp hx with ⟨hxa, hxS⟩
        rcases Finset.mem_insert.mp (hsub hxS) with h1 | h1
        · exact absurd h1 hxa
        rcases Finset.mem_insert.mp h1 with h2 | h2
        · exact absurd (h2 ▸ hxS) hbS
        · exact h2
      · by_cases hbS : a.invert ∈ S
        · refine Or.inr (Or.inr ⟨S.erase a.invert,
            ⟨?_, validSet_subset (Finset.erase_subset _ _) hval⟩, Finset.insert_erase hbS⟩)
          intro x hx
          rcases Finset.mem_erase.mp hx with ⟨hxb, hxS⟩
          rcases Finset.mem_insert.mp (hsub hxS) with h1 | h1
          · exact absurd (h1 ▸ hxS) haS
          rcases Finset.mem_insert.mp h1 with h2 | h2
          · exact absurd h2 hxb
          · exact h2
        · refine Or.inl ⟨?_, hval⟩
          intro x hx
          rcases Finset.mem_insert.mp (hsub hx) with h1 | h1
          · exact absurd (h1 ▸ hx) haS
          rcases Finset.mem_insert.mp h1 with h2 | h2
          · exact absurd (h2 ▸ hx) hbS
          · exact h2
    · rintro (⟨hsub, hval⟩ | ⟨T, ⟨hsub, hval⟩, rfl⟩ | ⟨T, ⟨hsub, hval⟩, rfl⟩)
      · exact ⟨hsub.trans ((Finset.subset_insert _ _).trans (Finset.subset_insert _ _)),
          hval⟩
      · refine ⟨?_, ?_⟩
        · intro x hx
          rcases Finset.mem_insert.mp hx with rfl | hxT
          · exact Finset.mem_insert_self _ _
          · exact Finset.mem_insert_of_mem (Finset.mem_insert_of_mem (hsub hxT))
        · intro e he
          rcases Finset.mem_insert.mp he with rfl | heT
          · intro hc
            rcases Finset.mem_insert.mp hc with h1 | h1
            · exact hab h1
            · exact hb (hsub h1)
          · intro hc
            rcases Finset.mem_insert.mp hc with h1 | h1
            · have : e = a.invert := by
                have := congrArg Variable.invert h1
                rwa [Variable.invert_invert] at this
              exact hb (hsub (this ▸ heT))
            · exact hval e heT h1
      · refine ⟨?_, ?_⟩
        · intro x hx
          rcases Finset.mem_insert.mp hx with rfl | hxT
          · exact Finset.mem_insert_of_mem (Finset.mem_insert_self _ _)
          · exact Finset.mem_insert_of_mem (Finset.mem_insert_of_mem (hsub hxT))
        · intro e he
          rcases Finset.mem_insert.mp he with rfl | heT
          · rw [Variable.invert_invert]
            intro hc
            rcases Finset.mem_insert.mp hc with h1 | h1
            · exact hab h1.symm
            · exact ha (hsub h1)
          · intro hc
            rcases Finset.mem_insert.mp hc with h1 | h1
            · have : e = a := by
                have := congrArg Variable.invert h1
                rwa [Variable.invert_invert, Variable.invert_invert] at this
              exact ha (hsub (this ▸ heT))
            · exact hval e heT h1
  have hVa : ∀ S ∈ L.powerset.filter ValidSet, a ∉ S := by
    intro S hS
    rcases Finset.mem_filter.mp hS with ⟨hsub, _⟩
    exact fun hc => ha (Finset.mem_powerset.mp hsub hc)
  have hVb : ∀ S ∈ L.powerset.filter ValidSet, a.invert ∉ S := by
    intro S hS
    rcases Finset.mem_filter.mp hS with ⟨hsub, _⟩
    exact fun hc => hb (Finset.mem_powerset.mp hsub hc)
  have hDab : Disjoint ((L.powerset.filter ValidSet).image (insert a))
      ((L.powerset.filter ValidSet).image (insert a.invert)) := by
    rw [Finset.disjoint_left]
    rintro T hT1 hT2
    rcases Finset.mem_image.mp hT1 with ⟨S1, hS1, rfl⟩
    rcases Finset.mem_image.mp hT2 with ⟨S2, hS2, heq⟩
    have haT : a ∈ insert a.invert S2 := heq ▸ Finset.mem_insert_self a S1
    rcases Finset.mem_insert.mp haT with h1 | h1
    · exact hab h1.symm
    · exact hVa S2 hS2 h1
  have hD : Disjoint (L.powerset.filter ValidSet)
      ((L.powerset.filter ValidSet).image (insert a) ∪
        (L.powerset.filter ValidSet).image (insert a.invert)) := by
    rw [Finset.disjoint_left]
    rintro S hS hc
    rcases Finset.mem_union.mp hc with h1 | h1
    · rcases Finset.mem_image.mp h1 with ⟨T, hT, heq⟩
      exact hVa S hS (heq ▸ Finset.mem_insert_self a T)
    · rcases Finset.mem_image.mp h1 with ⟨T, hT, heq⟩
      exact hVb S hS (heq ▸ Finset.mem_insert_self a.invert T)
  have hcarda : ((L.powerset.filter ValidSet).image (insert a)).card =
      (L.powerset.filter ValidSet).card := by
    refine Finset.card_image_of_injOn ?_
    intro S1 hS1 S2 hS2 heq
    have h1 : a ∉ S1 := hVa S1 hS1
    have h2 : a ∉ S2 := hVa S2 hS2
    have := congrArg (fun S => Finset.erase S a) heq
    simpa [Finset.erase_insert h1, Finset.erase_insert h2] using this
  have hcardb : ((L.powerset.filter ValidSet).image (insert a.invert)).card =
      (L.powerset.filter ValidSet).card := by
    refine Finset.card_image_of_injOn ?_
    intro S1 hS1 S2 hS2 heq
    have h1 : a.invert ∉ S1 := hVb S1 hS1
    have h2 : a.invert ∉ S2 := hVb S2 hS2
    have := congrArg (fun S => Finset.erase S a.invert) heq
    simpa [Finset.erase_insert h1, Finset.erase_insert h2] using this
  rw [hE, Finset.card_union_of_disjoint hD, Finset.card_union_of_disjoint hDab, hcarda,
    hcardb]
  ring

theorem litFinset_cons (v : Variable) (rest : List Variable) :
    litFinset (v :: rest) = insert v (insert v.invert (litFinset rest)) := by
  ext x
  simp only [litFinset, allSymbols, List.toFinset_append, List.map_cons, List.toFinset_cons,
    Finset.mem_union, Finset.mem_insert, List.mem_toFinset, List.mem_map]
  constructor
  · rintro (( rfl | h) | (rfl | h))
    · exact Or.inl rfl
    · exact Or.inr (Or.inr (Or.inl (List.mem_toFinset.mp (by simpa using h))))
    · exact Or.inr (Or.inl rfl)
    · exact Or.inr (Or.inr (Or.inr (by simpa using h)))
  · rintro (rfl | (rfl | h))
    · exact Or.inl (Or.inl rfl)
    · exact Or.inr (Or.inl rfl)
    · rcases (by simpa [allSymbols] using h :
        x ∈ rest ∨ x ∈ rest.map Variable.invert) with h1 | h1
      · exact Or.inl (Or.inr (by simpa using h1))
      · exact Or.inr (Or.inr (by simpa using h1))

theorem card_validSubsets {symbols : List Variable} (h : SymsOK symbols) :
    (validSubsets symbols).card = 3 ^ symbols.length := by
  induction symbols with
  | nil =>
    have : validSubsets [] = {∅} := by
      decide
    rw [this]
    simp
  | cons v rest ih =>
    have hrest : SymsOK rest := by
      refine ⟨(List.nodup_cons.mp h.1).2, fun w hw => h.2 w (List.mem_cons_of_mem _ hw)⟩
    have hvt : v.token ∉ rest.map Variable.token := (List.nodup_cons.mp h.1).1
    have hvL : v ∉ litFinset rest := by
      intro hc
      exact hvt (token_mem_of_mem_allSymbols (List.mem_toFinset.mp hc))
    have hvL' : v.invert ∉ litFinset rest := by
      intro hc
      have := token_mem_of_mem_allSymbols (List.mem_toFinset.mp hc)
      exact hvt this
    unfold validSubsets
    rw [litFinset_cons, filter_valid_powerset_insert_pair _ _ hvL hvL']
    unfold validSubsets at ih
    rw [ih hrest]
    rw [List.length_cons, pow_succ]
    ring

theorem toFinset_allStatements (symbols : List Variable) :
    (allStatements symbols).toFinset =
      ((validSubsets symbols).erase ∅).image Statement.mk := by
  ext st
  rw [List.mem_toFinset, mem_allStatements]
  simp only [Finset.mem_image, Finset.mem_erase, Finset.mem_filter, Finset.mem_powerset,
    validSubsets]
  constructor
  · rintro ⟨h1, h2, h3⟩
    exact ⟨st.variables, ⟨h2, h1, (Statement.is_valid_iff st).mp h3⟩, by cases st; rfl⟩
  · rintro ⟨S, ⟨hne, hsub, hval⟩, rfl⟩
    exact ⟨hsub, hne, (Statement.is_valid_iff _).mpr hval⟩

theorem length_allStatements {symbols : List Variable} (h : SymsOK symbols) :
    (allStatements symbols).length = 3 ^ symbols.length - 1 := by
  have hnd := nodup_allStatements h
  have h1 : (allStatements symbols).length = (allStatements symbols).toFinset.card :=
    (List.toFinset_card_of_nodup hnd).symm
  rw [h1, toFinset_allStatements]
  rw [Finset.card_image_of_injective _ Statement.mk_injective]
  have hmem : (∅ : Finset Variable) ∈ validSubsets symbols := by
    unfold validSubsets
    rw [Finset.mem_filter, Finset.mem_powerset]
    exact ⟨Finset.empty_subset _, fun e he => absurd he (Finset.not_mem_empty e)⟩
  rw [Finset.card_erase_of_mem hmem, card_validSubsets h]

/-- C5: for symbol lists as produced by the parser (distinct tokens,
positive polarity), the universe built from the non-empty combinations
of the `2n` literals contains exactly the distinct non-empty statements
over those literals in which no variable occurs with both polarities,
listed without duplicates, and its size is exactly `3 ^ n - 1`. -/
theorem c5_universe_characterisation {symbols : List Variable} (h : SymsOK symbols) :
    (∀ st : Statement, st ∈ allStatements symbols ↔
        st.variables ⊆ litFinset symbols ∧ st.variables ≠ ∅ ∧ st.is_valid = true) ∧
      (allStatements symbols).Nodup ∧
      (allStatements symbols).length = 3 ^ symbols.length - 1 :=
  ⟨fun st => mem_allStatements symbols st, nodup_allStatements h, length_allStatements h⟩

theorem c5_universe_characterisation_witness :
    SymsOK [varA, varB] ∧ (allStatements [varA, varB]).length = 3 ^ 2 - 1 := by
  refine ⟨?_, ?_⟩
  · constructor
    · decide
    · decide
  · exact (c5_universe_characterisation
      (by constructor
          · decide
          · decide)).2.2

theorem c6_no_validity_check_witness :
    (({varA, varA.invert} : Finset Variable), (7 : ℚ)) ∈
        [(({varA, varA.invert} : Finset Variable), (7 : ℚ))] ∧
      ∃ w, kfind (initKnown [({varA, varA.invert}, 7)])
        (Statement.mk {varA, varA.invert}) = some w :=
  ⟨List.mem_singleton_self _,
    c6_no_validity_check _ _ _ (List.mem_singleton_self _)⟩

/-! ### The children structure (claim C4) -/

theorem Statement.eq_of_vars_eq {x y : Statement}
    (h : x.variables = y.variables) : x = y := by
  cases x
  cases y
  simpa using h

theorem mem_setAdd (x a : Statement) (l : List Statement) :
    x ∈ setAdd a l ↔ x = a ∨ x ∈ l := by
  unfold setAdd
  by_cases h : a ∈ l
  · rw [if_pos h]
    constructor
    · exact Or.inr
    · rintro (rfl | hx)
      · exact h
      · exact hx
  · rw [if_neg h]
    simp [or_comm]

theorem contains_antisymm {x y : Statement} (h1 : Statement.contains y x = true)
    (h2 : Statement.contains x y = true) : x = y := by
  have s1 := (Statement.contains_iff_subset y x).mp h1
  have s2 := (Statement.contains_iff_subset x y).mp h2
  exact (Statement.eq_of_vars_eq (Finset.Subset.antisymm s2 s1))

theorem mem_updAt (f : Statement → List Statement) (k a X Y : Statement) :
    X ∈ (fun z => if z = k then setAdd a (f z) else f z) Y ↔
      (Y = k ∧ (X = a ∨ X ∈ f Y)) ∨ (Y ≠ k ∧ X ∈ f Y) := by
  show X ∈ (if Y = k then setAdd a (f Y) else f Y) ↔ _
  by_cases h : Y = k
  · rw [if_pos h, mem_setAdd]
    simp [h]
  · rw [if_neg h]
    simp [h]

theorem mem_childStep (ch : Statement → List Statement) (p : Statement × Statement)
    (X Y : Statement) :
    X ∈ childStep ch p Y ↔
      X ∈ ch Y ∨
        (p.1 ≠ p.2 ∧ Statement.contains Y X = true ∧
          ((p.1 = X ∧ p.2 = Y) ∨ (p.1 = Y ∧ p.2 = X))) := by
  obtain ⟨x, y⟩ := p
  simp only [ne_eq]
  by_cases hxy : x = y
  · have hres : childStep ch (x, y) = ch := by
      simp [childStep, hxy]
    rw [hres]
    constructor
    · exact Or.inl
    · rintro (h | ⟨hne, _⟩)
      · exact h
      · exact absurd hxy hne
  · by_cases h21 : Statement.contains y x = true
    · by_cases h12 : Statement.contains x y = true
      · exact absurd (contains_antisymm h21 h12) hxy
      · have h12' : Statement.contains x y = false := by
          simpa using h12
        have hres : childStep ch (x, y) =
            fun z => if z = y then setAdd x (ch z) else ch z := by
          simp [childStep, hxy, h21, h12']
        rw [hres, mem_updAt]
        constructor
        · rintro (⟨hYy, (rfl | hX)⟩ | ⟨hYy, hX⟩)
          · subst hYy
            exact Or.inr ⟨hxy, h21, Or.inl ⟨rfl, rfl⟩⟩
          · exact Or.inl hX
          · exact Or.inl hX
        · rintro (hX | ⟨hne, hcont, (⟨h1, h2⟩ | ⟨h1, h2⟩)⟩)
          · by_cases hYy : Y = y
            · exact Or.inl ⟨hYy, Or.inr hX⟩
            · exact Or.inr ⟨hYy, hX⟩
          · exact Or.inl ⟨h2.symm, Or.inl h1.symm⟩
          · subst h1
            subst h2
            rw [hcont] at h12'
            exact Bool.noConfusion h12'
    · have h21' : Statement.contains y x = false := by
        simpa using h21
      by_cases h12 : Statement.contains x y = true
      · have hres : childStep ch (x, y) =
            fun z => if z = x then setAdd y (ch z) else ch z := by
          simp [childStep, hxy, h21', h12]
        rw [hres, mem_updAt]
        constructor
        · rintro (⟨hYx, (rfl | hX)⟩ | ⟨hYx, hX⟩)
          · subst hYx
            exact Or.inr ⟨hxy, h12, Or.inr ⟨rfl, rfl⟩⟩
          · exact Or.inl hX
          · exact Or.inl hX
        · rintro (hX | ⟨hne, hcont, (⟨h1, h2⟩ | ⟨h1, h2⟩)⟩)
          · by_cases hYx : Y = x
            · exact Or.inl ⟨hYx, Or.inr hX⟩
            · exact Or.inr ⟨hYx, hX⟩
          · subst h1
            subst h2
            rw [hcont] at h21'
            exact Bool.noConfusion h21'
          · exact Or.inl ⟨h1.symm, Or.inl h2.symm⟩
      · have h12' : Statement.contains x y = false := by
          simpa using h12
        have hres : childStep ch (x, y) = ch := by
          simp [childStep, hxy, h21', h12']
        rw [hres]
        constructor
        · exact Or.inl
        · rintro (hX | ⟨hne, hcont, (⟨h1, h2⟩ | ⟨h1, h2⟩)⟩)
          · exact hX
          · subst h1
            subst h2
            rw [hcont] at h21'
            exact Bool.noConfusion h21'
          · subst h1
            subst h2
            rw [hcont] at h12'
            exact Bool.noConfusion h12'

theorem mem_foldl_childStep (ps : List (Statement × Statement))
    (ch0 : Statement → List Statement) (X Y : Statement) :
    X ∈ (ps.foldl childStep ch0) Y ↔
      X ∈ ch0 Y ∨ ∃ p ∈ ps, p.1 ≠ p.2 ∧ Statement.contains Y X = true ∧
        ((p.1 = X ∧ p.2 = Y) ∨ (p.1 = Y ∧ p.2 = X)) := by
  induction ps generalizing ch0 with
  | nil => simp
  | cons q qs ih =>
    rw [List.foldl_cons, ih, mem_childStep]
    constructor
    · rintro ((hX | hT) | ⟨p, hp, hT⟩)
      · exact Or.inl hX
      · exact Or.inr ⟨q, List.mem_cons_self q qs, hT⟩
      · exact Or.inr ⟨p, List.mem_cons_of_mem _ hp, hT⟩
    · rintro (hX | ⟨p, hp, hT⟩)
      · exact Or.inl (Or.inl hX)
      · rcases List.mem_cons.mp hp with rfl | hp'
        · exact Or.inl (Or.inr hT)
        · exact Or.inr ⟨p, hp', hT⟩

theorem mem_pairsComb {α : Type} :
    ∀ (l : List α) (a b : α), (a, b) ∈ pairsComb l → a ∈ l ∧ b ∈ l := by
  intro l
  induction l with
  | nil => intro a b h; simp [pairsComb] at h
  | cons x xs ih =>
    intro a b h
    rw [pairsComb, List.mem_append] at h
    rcases h with h | h
    · rcases List.mem_map.mp h with ⟨y, hy, heq⟩
      injection heq with h1 h2
      subst h1
      subst h2
      exact ⟨List.mem_cons_self _ _, List.mem_cons_of_mem _ hy⟩
    · rcases ih a b h with ⟨h1, h2⟩
      exact ⟨List.mem_cons_of_mem _ h1, List.mem_cons_of_mem _ h2⟩

theorem pairsComb_complete {α : Type} :
    ∀ (l : List α) (a b : α), a ∈ l → b ∈ l → a ≠ b →
      (a, b) ∈ pairsComb l ∨ (b, a) ∈ pairsComb l := by
  intro l
  induction l with
  | nil => intro a b h; simp at h
  | cons x xs ih =>
    intro a b ha hb hne
    rcases List.mem_cons.mp ha with rfl | ha'
    · rcases List.mem_cons.mp hb with rfl | hb'
      · exact absurd rfl hne
      · exact Or.inl (by
          rw [pairsComb, List.mem_append]
          exact Or.inl (List.mem_map.mpr ⟨b, hb', rfl⟩))
    · rcases List.mem_cons.mp hb with rfl | hb'
      · exact Or.inr (by
          rw [pairsComb, List.mem_append]
          exact Or.inl (List.mem_map.mpr ⟨a, ha', rfl⟩))
      · rcases ih a b ha' hb' hne with h | h
        · exact Or.inl (by
            rw [pairsComb, List.mem_append]
            exact Or.inr h)
        · exact Or.inr (by
            rw [pairsComb, List.mem_append]
            exact Or.inr h)

theorem mem_buildChildren (l : List Statement) (X Y : Statement) :
    X ∈ buildChildren l Y ↔
      X ∈ l ∧ Y ∈ l ∧ X ≠ Y ∧ Statement.contains Y X = true := by
  unfold buildChildren
  rw [mem_foldl_childStep]
  simp only [List.not_mem_nil, false_or]
  constructor
  · rintro ⟨p, hp, hne, hcont, (⟨h1, h2⟩ | ⟨h1, h2⟩)⟩
    · obtain ⟨p1, p2⟩ := p
      simp only at h1 h2 hne
      subst h1
      subst h2
      rcases mem_pairsComb l _ _ hp with ⟨hX, hY⟩
      exact ⟨hX, hY, hne, hcont⟩
    · obtain ⟨p1, p2⟩ := p
      simp only at h1 h2 hne
      subst h1
      subst h2
      rcases mem_pairsComb l _ _ hp with ⟨hY, hX⟩
      exact ⟨hX, hY, fun h => hne h.symm, hcont⟩
  · rintro ⟨hX, hY, hne, hcont⟩
    rcases pairsComb_complete l X Y hX hY hne with h | h
    · exact ⟨(X, Y), h, hne, hcont, Or.inl ⟨rfl, rfl⟩⟩
    · exact ⟨(Y, X), h, fun hc => hne hc.symm, hcont, Or.inr ⟨rfl, rfl⟩⟩

/-- C4 counterexample: in the universe over variables `A, B`, the
statement `P(A, B)` is recorded as a child of `P(A)` although its
literal set is *not* a strict subset of `P(A)`'s (it is a strict
superset), and its rank is *greater* than its parent's — the recorded
relation is the reverse of the claimed one. -/
theorem c4_children_counterexample :
    stAB ∈ buildChildren (allStatements [varA, varB]) stA ∧
      ¬ stAB.variables ⊂ stA.variables ∧ ¬ stAB.variables.card < stA.variables.card := by
  refine ⟨(mem_buildChildren _ _ _).mpr ⟨?_, ?_, ?_, ?_⟩, ?_, ?_⟩
  · decide
  · decide
  · decide
  · decide
  · decide
  · decide

/-- C4 amended: in the children structure built over the universe,
`X` is recorded as a child of `Y` iff `Y`'s literal set is a *strict
subset* of `X`'s (children are the strict literal supersets), and
consequently every recorded child has rank strictly *greater* than its
parent's. -/
theorem c4_children_strict_superset (symbols : List Variable) (X Y : Statement)
    (hX : X ∈ allStatements symbols) (hY : Y ∈ allStatements symbols) :
    (X ∈ buildChildren (allStatements symbols) Y ↔ Y.variables ⊂ X.variables) ∧
      (X ∈ buildChildren (allStatements symbols) Y →
        Y.variables.card < X.variables.card) := by
  have hiff : X ∈ buildChildren (allStatements symbols) Y ↔ Y.variables ⊂ X.variables := by
    rw [mem_buildChildren]
    constructor
    · rintro ⟨_, _, hne, hcont⟩
      refine Finset.ssubset_iff_subset_ne.mpr
        ⟨(Statement.contains_iff_subset _ _).mp hcont, ?_⟩
      exact fun h => hne (Statement.eq_of_vars_eq h.symm)
    · intro hss
      refine ⟨hX, hY, ?_, (Statement.contains_iff_subset _ _).mpr hss.subset⟩
      intro h
      exact (Finset.ssubset_iff_subset_ne.mp hss).2 (by rw [h])
  exact ⟨hiff, fun h => Finset.card_lt_card (hiff.mp h)⟩

theorem c4_children_strict_superset_witness :
    stAB ∈ buildChildren (allStatements [varA, varB]) stA :=
  (c4_children_strict_superset [varA, varB] stAB stA (by decide) (by decide)).1.mpr
    (by decide)

/-! ### The complement rule (claim C2) -/

theorem invStatement_injOn_singleton {a b : Statement}
    (h : invStatement a = invStatement b) : a = b := by
  have := congrArg invStatement h
  rwa [invStatement_invStatement, invStatement_invStatement] at this

theorem kfind_foldl_complementStep (known : KMap) (l : List (Statement × ℚ)) (upd : KMap)
    (s : Statement) :
    kfind (l.foldl (complementStep known) upd) s =
      match (l.filter (fun p => decide (p.1.variables.card = 1 ∧ invStatement p.1 = s ∧
          kfind known s = none))).getLast? with
      | some p => some (1 - p.2)
      | none => kfind upd s := by
  induction l using List.reverseRecOn with
  | nil => simp
  | append_singleton l p ih =>
    rw [List.foldl_append, List.filter_append]
    simp only [List.foldl_cons, List.foldl_nil]
    by_cases hcard : p.1.variables.card = 1
    · by_cases htgt : invStatement p.1 = s
      · by_cases hguard : kfind known s = none
        · have hstep : complementStep known (l.foldl (complementStep known) upd) p =
              kset (l.foldl (complementStep known) upd) s (1 - p.2) := by
            unfold complementStep
            rw [if_pos hcard, htgt, if_pos hguard]
          rw [hstep, kfind_kset, if_pos rfl]
          have : (List.filter (fun p => decide (p.1.variables.card = 1 ∧
              invStatement p.1 = s ∧ kfind known s = none)) [p]) = [p] := by
            simp [hcard, htgt, hguard]
          rw [this, List.getLast?_concat]
        · have hguard' : kfind known (invStatement p.1) ≠ none := by rwa [htgt]
          have hstep : complementStep known (l.foldl (complementStep known) upd) p =
              l.foldl (complementStep known) upd := by
            unfold complementStep
            rw [if_pos hcard, if_neg hguard']
          have : (List.filter (fun p => decide (p.1.variables.card = 1 ∧
              invStatement p.1 = s ∧ kfind known s = none)) [p]) = [] := by
            simp [hguard]
          rw [hstep, this, List.append_nil, ih]
      · have hstep1 : ∀ (u : KMap), complementStep known u p = u ∨
            complementStep known u p = kset u (invStatement p.1) (1 - p.2) := by
          intro u
          unfold complementStep
          rw [if_pos hcard]
          by_cases hg : kfind known (invStatement p.1) = none
          · rw [if_pos hg]
            exact Or.inr rfl
          · rw [if_neg hg]
            exact Or.inl rfl
        have : (List.filter (fun p => decide (p.1.variables.card = 1 ∧
            invStatement p.1 = s ∧ kfind known s = none)) [p]) = [] := by
          simp [htgt]
        rw [this, List.append_nil]
        rcases hstep1 (l.foldl (complementStep known) upd) with h | h
        · rw [h, ih]
        · rw [h, kfind_kset, if_neg htgt, ih]
    · have hstep : complementStep known (l.foldl (complementStep known) upd) p =
          l.foldl (complementStep known) upd := by
        unfold complementStep
        rw [if_neg hcard]
      have : (List.filter (fun p => decide (p.1.variables.card = 1 ∧
          invStatement p.1 = s ∧ kfind known s = none)) [p]) = [] := by
        simp [hcard]
      rw [hstep, this, List.append_nil, ih]

theorem kfind_complementUpdates (known : KMap) (s : Statement) :
    kfind (complementUpdates known) s =
      match (known.filter (fun p => decide (p.1.variables.card = 1 ∧ invStatement p.1 = s ∧
          kfind known s = none))).getLast? with
      | some p => some (1 - p.2)
      | none => none := by
  unfold complementUpdates
  rw [kfind_foldl_complementStep]
  rfl

theorem keysNodup_foldl_complementStep (known : KMap) (l : List (Statement × ℚ))
    {upd : KMap} (h : KeysNodup upd) :
    KeysNodup (l.foldl (complementStep known) upd) := by
  induction l generalizing upd with
  | nil => exact h
  | cons p rest ih =>
    rw [List.foldl_cons]
    refine ih ?_
    unfold complementStep
    by_cases hcard : p.1.variables.card = 1
    · rw [if_pos hcard]
      by_cases hg : kfind known (invStatement p.1) = none
      · rw [if_pos hg]
        exact keysNodup_kset h _ _
      · rw [if_neg hg]
        exact h
    · rw [if_neg hcard]
      exact h

theorem keysNodup_complementUpdates (known : KMap) : KeysNodup (complementUpdates known) :=
  keysNodup_foldl_complementStep known known (by simp [KeysNodup])

theorem filter_key_eq_of_nodup {m : KMap} {st : Statement} {p : ℚ}
    (hnd : KeysNodup m) (h : kfind m st = some p) :
    m.filter (fun q => decide (q.1 = st)) = [(st, p)] := by
  induction m with
  | nil => simp [kfind] at h
  | cons q rest ih =>
    have hn := List.nodup_cons.mp hnd
    by_cases hq : q.1 = st
    · rw [kfind, if_pos hq] at h
      have hqp : q = (st, p) := by
        cases q with
        | mk a b =>
          simp at hq h
          simp [hq, h]
      have hrest : rest.filter (fun q => decide (q.1 = st)) = [] := by
        rw [List.filter_eq_nil_iff]
        intro r hr
        simp only [decide_eq_true_eq]
        intro hrk
        have : st ∈ rest.map Prod.fst := List.mem_map.mpr ⟨r, hr, hrk⟩
        rw [← hq] at this
        exact hn.1 this
      rw [List.filter_cons_of_pos (by simpa using hq), hrest, hqp]
    · rw [kfind, if_neg hq] at h
      rw [List.filter_cons_of_neg (by simpa using hq)]
      exact ih hn.2 h

theorem kfind_dictUpdate {u : KMap} (hnd : KeysNodup u) (m : KMap) (s : Statement) :
    kfind (dictUpdate m u) s =
      match kfind u s with
      | some v => some v
      | none => kfind m s := by
  induction u generalizing m with
  | nil => rfl
  | cons p rest ih =>
    have hn := List.nodup_cons.mp hnd
    have hstep : dictUpdate m (p :: rest) = dictUpdate (kset m p.1 p.2) rest := rfl
    rw [hstep, ih hn.2, kfind_kset]
    by_cases hps : p.1 = s
    · have hrest : kfind rest s = none := by
        rw [kfind_eq_none_iff]
        intro hc
        rw [keysF] at hc
        rw [← hps] at hc
        exact hn.1 (List.mem_toFinset.mp hc)
      rw [hrest, kfind, if_pos hps, if_pos hps]
    · rw [kfind, if_neg hps, if_neg hps]

theorem keysF_dictUpdate (m u : KMap) : keysF (dictUpdate m u) = keysF m ∪ keysF u := by
  induction u generalizing m with
  | nil => simp [dictUpdate, keysF]
  | cons p rest ih =>
    have hstep : dictUpdate m (p :: rest) = dictUpdate (kset m p.1 p.2) rest := rfl
    rw [hstep, ih, keysF_kset]
    have : keysF (p :: rest) = insert p.1 (keysF rest) := by
      simp [keysF]
    rw [this]
    ext z
    simp only [Finset.mem_union, Finset.mem_insert]
    tauto

theorem complementPhase_adds_complement {m : KMap} (hnd : KeysNodup m) (st : Statement)
    (p : ℚ) (hcard : st.variables.card = 1) (h1 : kfind m st = some p)
    (h2 : kfind m (invStatement st) = none) :
    kfind (dictUpdate m (complementUpdates m)) (invStatement st) = some (1 - p) := by
  rw [kfind_dictUpdate (keysNodup_complementUpdates m)]
  suffices hu : kfind (complementUpdates m) (invStatement st) = some (1 - p) by rw [hu]
  rw [kfind_complementUpdates]
  have hfeq : m.filter (fun q => decide (q.1.variables.card = 1 ∧
      invStatement q.1 = invStatement st ∧ kfind m (invStatement st) = none)) =
      m.filter (fun q => decide (q.1 = st)) := by
    apply List.filter_congr
    intro q hq
    rw [decide_eq_decide]
    constructor
    · rintro ⟨hc, hinv, _⟩
      exact invStatement_injOn_singleton hinv
    · intro heq
      rw [heq]
      exact ⟨hcard, rfl, h2⟩
  rw [hfeq, filter_key_eq_of_nodup hnd h1]
  rfl

theorem complementPhase_new_keys {m : KMap} (hnd : KeysNodup m) (s : Statement) (v : ℚ)
    (h0 : kfind m s = none) (h : kfind (dictUpdate m (complementUpdates m)) s = some v) :
    ∃ e p, kfind m (Statement.mk {e}) = some p ∧ s = Statement.mk {e.invert} ∧ v = 1 - p := by
  rw [kfind_dictUpdate (keysNodup_complementUpdates m)] at h
  cases hu : kfind (complementUpdates m) s with
  | none =>
    rw [hu] at h
    rw [h0] at h
    exact Option.noConfusion h
  | some w =>
    rw [hu] at h
    rw [kfind_complementUpdates] at hu
    cases hl : (m.filter (fun p => decide (p.1.variables.card = 1 ∧ invStatement p.1 = s ∧
        kfind m s = none))).getLast? with
    | none =>
      rw [hl] at hu
      exact Option.noConfusion hu
    | some q =>
      rw [hl] at hu
      have hqmem := List.mem_of_getLast?_eq_some hl
      have hqf := List.mem_filter.mp hqmem
      have hT := hqf.2
      simp only [decide_eq_true_eq] at hT
      obtain ⟨hc, hinv, _⟩ := hT
      obtain ⟨e, he⟩ := vars_eq_singleton_of_card_one hc
      refine ⟨e, q.2, ?_, ?_, ?_⟩
      · refine kfind_eq_some_of_mem_nodup hnd ?_
        have : q = (Statement.mk {e}, q.2) := by
          rw [← he]
        rw [← this]
        exact hqf.1
      · rw [← hinv, he, invStatement_mk_singleton]
      · injection hu with hu'
        injection h with h'
        rw [← h', ← hu']

/-- C2: after the complement half of a pass, (a) for every known
single-literal statement `st` with value `p` whose complement
single-literal statement is not known, the complement statement is
recorded with value exactly `1 - p`, and (b) every entry the complement
rule adds (a key not previously known) arises this way from a known
*single-literal* statement — the rule never fires for statements with
more than one literal. -/
theorem c2_complement_rule (m : KMap) (hnd : KeysNodup m) :
    (∀ (st : Statement) (p : ℚ), st.variables.card = 1 → kfind m st = some p →
        kfind m (invStatement st) = none →
        kfind (dictUpdate m (complementUpdates m)) (invStatement st) = some (1 - p)) ∧
      (∀ (s : Statement) (v : ℚ), kfind m s = none →
        kfind (dictUpdate m (complementUpdates m)) s = some v →
        ∃ e p, kfind m (Statement.mk {e}) = some p ∧ s = Statement.mk {e.invert} ∧
          v = 1 - p) :=
  ⟨fun st p hcard h1 h2 => complementPhase_adds_complement hnd st p hcard h1 h2,
    fun s v h0 h => complementPhase_new_keys hnd s v h0 h⟩

theorem c2_complement_rule_witness :
    kfind (dictUpdate [(stA, 7)] (complementUpdates [(stA, 7)])) (invStatement stA) =
      some (1 - 7) :=
  (c2_complement_rule [(stA, 7)] (by simp [KeysNodup])).1 stA 7 (by decide) (by decide)
    (by decide)

/-! ### The partition rule on one span group (claims C1, C9, C7) -/

theorem processSpan_difference (m : KMap) (b : Bool) (parent : Statement)
    (span : List Statement) (pv : ℚ) (u : Statement) (hp : kfind m parent = some pv)
    (hU : span.filter (fun e => (kfind m e).isNone) = [u]) :
    processSpan parent (m, b) span =
      (kset m u (pv -
        ((span.filter (fun e => decide (e ≠ u))).map (fun e => (kfind m e).getD 0)).sum),
        true) := by
  unfold processSpan
  dsimp only
  rw [hp, hU]
  rw [if_pos (⟨rfl, rfl⟩ : (some pv : Option ℚ).isSome = true ∧
    ([u] : List Statement).length = 1)]
  rw [if_neg ?_]
  · dsimp only [List.headI_cons, Option.getD_some]
  · rintro ⟨_, hc⟩
    exact List.cons_ne_nil u [] hc

theorem processSpan_union (m : KMap) (b : Bool) (parent : Statement)
    (span : List Statement) (hp : kfind m parent = none)
    (hU : span.filter (fun e => (kfind m e).isNone) = []) :
    processSpan parent (m, b) span =
      (kset m parent ((span.map (fun e => (kfind m e).getD 0)).sum), true) := by
  unfold processSpan
  dsimp only
  rw [hp, hU]
  have hC1 : ¬((none : Option ℚ).isSome = true ∧ ([] : List Statement).length = 1) := by
    simp
  rw [if_neg hC1]
  dsimp only
  rw [if_pos (⟨hp, rfl⟩ : kfind m parent = none ∧ ([] : List Statement) = [])]

theorem processSpan_skip_many_unknowns (m : KMap) (b : Bool) (parent : Statement)
    (span : List Statement)
    (h : 2 ≤ (span.filter (fun e => (kfind m e).isNone)).length) :
    processSpan parent (m, b) span = (m, b) := by
  unfold processSpan
  dsimp only
  have hC1 : ¬((kfind m parent).isSome = true ∧
      (span.filter (fun e => (kfind m e).isNone)).length = 1) := by
    rintro ⟨_, hc⟩
    omega
  rw [if_neg hC1]
  dsimp only
  rw [if_neg ?_]
  · rintro ⟨_, hc⟩
    rw [hc] at h
    simp at h

theorem processSpan_skip_parent_unknown_one (m : KMap) (b : Bool) (parent : Statement)
    (span : List Statement) (u : Statement) (hp : kfind m parent = none)
    (hU : span.filter (fun e => (kfind m e).isNone) = [u]) :
    processSpan parent (m, b) span = (m, b) := by
  unfold processSpan
  dsimp only
  rw [hp, hU]
  have hC1 : ¬((none : Option ℚ).isSome = true ∧ ([u] : List Statement).length = 1) := by
    simp
  rw [if_neg hC1]
  dsimp only
  rw [if_neg ?_]
  · rintro ⟨_, hc⟩
    exact List.cons_ne_nil u [] hc

theorem processSpan_skip_parent_known_none_unknown (m : KMap) (b : Bool) (parent : Statement)
    (span : List Statement) (pv : ℚ) (hp : kfind m parent = some pv)
    (hU : span.filter (fun e => (kfind m e).isNone) = []) :
    processSpan parent (m, b) span = (m, b) := by
  unfold processSpan
  dsimp only
  rw [hp, hU]
  have hC1 : ¬((some pv : Option ℚ).isSome = true ∧ ([] : List Statement).length = 1) := by
    simp
  rw [if_neg hC1]
  dsimp only
  rw [if_neg ?_]
  · rintro ⟨hc, _⟩
    rw [hp] at hc
    exact Option.noConfusion hc

/-- C1: for any state of the known map and any span group, the span
step deduces values exactly as the partition rule describes:
difference mode when the parent is known and exactly one member is
unknown; union mode when the parent is unknown and no member is
unknown; and no assignment at all when two or more members are
unknown, or when the single-unknown / all-known situations arise with
the parent respectively unknown / known.  (The solver invokes
`processSpan` once per `(rank, span)` group of `buildChildren`
children for each parent in the universe — see `processParent` and
`partitionPhase`.) -/
theorem c1_partition_rule_modes (m : KMap) (b : Bool) (parent : Statement)
    (span : List Statement) :
    (∀ (pv : ℚ) (u : Statement), kfind m parent = some pv →
        span.filter (fun e => (kfind m e).isNone) = [u] →
        processSpan parent (m, b) span =
          (kset m u (pv - ((span.filter (fun e => decide (e ≠ u))).map
            (fun e => (kfind m e).getD 0)).sum), true)) ∧
      (kfind m parent = none → span.filter (fun e => (kfind m e).isNone) = [] →
        processSpan parent (m, b) span =
          (kset m parent ((span.map (fun e => (kfind m e).getD 0)).sum), true)) ∧
      (2 ≤ (span.filter (fun e => (kfind m e).isNone)).length →
        processSpan parent (m, b) span = (m, b)) ∧
      (∀ u : Statement, kfind m parent = none →
        span.filter (fun e => (kfind m e).isNone) = [u] →
        processSpan parent (m, b) span = (m, b)) ∧
      (∀ pv : ℚ, kfind m parent = some pv →
        span.filter (fun e => (kfind m e).isNone) = [] →
        processSpan parent (m, b) span = (m, b)) :=
  ⟨fun pv u hp hU => processSpan_difference m b parent span pv u hp hU,
    fun hp hU => processSpan_union m b parent span hp hU,
    fun h => processSpan_skip_many_unknowns m b parent span h,
    fun u hp hU => processSpan_skip_parent_unknown_one m b parent span u hp hU,
    fun pv hp hU => processSpan_skip_parent_known_none_unknown m b parent span pv hp hU⟩

theorem c1_partition_rule_modes_witness :
    processSpan stA ([(stA, 6), (stAB, 3)], false) [stAB, stAnB] =
      (kset [(stA, 6), (stAB, 3)] stAnB
        ((6 : ℚ) - (([stAB, stAnB].filter (fun e => decide (e ≠ stAnB))).map
          (fun e => (kfind [(stA, 6), (stAB, 3)] e).getD 0)).sum), true) :=
  (c1_partition_rule_modes [(stA, 6), (stAB, 3)] false stA [stAB, stAnB]).1 6 stAnB
    (by decide) (by decide)

/-- C9: a parent whose recorded children set is empty produces no rank
groups and no span groups — the parent iteration leaves the state
untouched; in particular union mode never fires over an empty group,
so such a parent is never assigned the empty sum `0`: its known-value
entry (or absence) is unchanged. -/
theorem c9_empty_children_skipped (univ : List Statement) (m : KMap) (b : Bool)
    (parent : Statement) (h : buildChildren univ parent = []) :
    processParent parent (buildChildren univ parent) (m, b) = (m, b) ∧
      kfind (processParent parent (buildChildren univ parent) (m, b)).1 parent =
        kfind m parent := by
  rw [h]
  exact ⟨rfl, rfl⟩

theorem c9_empty_children_skipped_witness :
    buildChildren (allStatements [varA, varB]) stAB = [] ∧
      processParent stAB (buildChildren (allStatements [varA, varB]) stAB)
        ([(stA, 6)], false) = ([(stA, 6)], false) := by
  have h : buildChildren (allStatements [varA, varB]) stAB = [] := by decide
  exact ⟨h, (c9_empty_children_skipped (allStatements [varA, varB]) [(stA, 6)] false stAB
    h).1⟩

/-! ### Evolution of the solver state (claims C7 and C8) -/

theorem Evolves.refl (A : Finset Statement) (st : KMap × Bool) : Evolves A st st :=
  Or.inl rfl

theorem Evolves.trans {A : Finset Statement} {st st' st'' : KMap × Bool}
    (h1 : Evolves A st st') (h2 : Evolves A st' st'') : Evolves A st st'' := by
  rcases h1 with rfl | ⟨hf1, hp1, hs1, hb1⟩
  · exact h2
  · rcases h2 with rfl | ⟨hf2, hp2, hs2, hb2⟩
    · exact Or.inr ⟨hf1, hp1, hs1, hb1⟩
    · refine Or.inr ⟨hf2, fun s v hv => hp2 s v (hp1 s v hv), hs1.trans hs2, ?_⟩
      intro z hz
      rcases Finset.mem_union.mp (hb2 hz) with h | h
      · rcases Finset.mem_union.mp (hb1 h) with h' | h'
        · exact Finset.mem_union_left _ h'
        · exact Finset.mem_union_right _ h'
      · exact Finset.mem_union_right _ h

theorem Evolves.mono {A B : Finset Statement} (hAB : A ⊆ B) {st st' : KMap × Bool}
    (h : Evolves A st st') : Evolves B st st' := by
  rcases h with rfl | ⟨hf, hp, hs, hb⟩
  · exact Or.inl rfl
  · refine Or.inr ⟨hf, hp, hs, ?_⟩
    intro z hz
    rcases Finset.mem_union.mp (hb hz) with h | h
    · exact Finset.mem_union_left _ h
    · exact Finset.mem_union_right _ (hAB h)

theorem Evolves.foldl {α : Type} {A : Finset Statement} (f : (KMap × Bool) → α → KMap × Bool)
    (l : List α) (h : ∀ (acc : KMap × Bool) (x : α), x ∈ l → Evolves A acc (f acc x)) :
    ∀ st : KMap × Bool, Evolves A st (l.foldl f st) := by
  induction l with
  | nil => intro st; exact Evolves.refl A st
  | cons x xs ih =>
    intro st
    rw [List.foldl_cons]
    refine Evolves.trans (h st x (List.mem_cons_self x xs)) ?_
    exact ih (fun acc y hy => h acc y (List.mem_cons_of_mem x hy)) (f st x)

theorem Evolves.preserves {A : Finset Statement} {st st' : KMap × Bool}
    (h : Evolves A st st') : ∀ s v, kfind st.1 s = some v → kfind st'.1 s = some v := by
  rcases h with rfl | ⟨_, hp, _, _⟩
  · exact fun _ _ hv => hv
  · exact hp

theorem Evolves.keys_mono {A : Finset Statement} {st st' : KMap × Bool}
    (h : Evolves A st st') : keysF st.1 ⊆ keysF st'.1 := by
  rcases h with rfl | ⟨_, _, hs, _⟩
  · exact Finset.Subset.refl _
  · exact hs.subset

theorem Evolves.flag_mono {A : Finset Statement} {st st' : KMap × Bool}
    (h : Evolves A st st') (hf : st.2 = true) : st'.2 = true := by
  rcases h with rfl | ⟨hf', _, _, _⟩
  · exact hf
  · exact hf'

theorem Evolves.eq_of_flag_false {A : Finset Statement} {st st' : KMap × Bool}
    (h : Evolves A st st') (hf : st'.2 = false) : st' = st := by
  rcases h with rfl | ⟨hf', _, _, _⟩
  · rfl
  · rw [hf'] at hf
    exact Bool.noConfusion hf

theorem Evolves.strict_of_flag_flip {A : Finset Statement} {st st' : KMap × Bool}
    (h : Evolves A st st') (h0 : st.2 = false) (h1 : st'.2 = true) :
    keysF st.1 ⊂ keysF st'.1 := by
  rcases h with rfl | ⟨_, _, hs, _⟩
  · rw [h0] at h1
    exact Bool.noConfusion h1
  · exact hs

theorem Evolves.bound {A : Finset Statement} {st st' : KMap × Bool}
    (h : Evolves A st st') : keysF st'.1 ⊆ keysF st.1 ∪ A := by
  rcases h with rfl | ⟨_, _, _, hb⟩
  · exact Finset.subset_union_left
  · exact hb

theorem processSpan_cases (parent : Statement) (st : KMap × Bool) (span : List Statement) :
    processSpan parent st span = st ∨
      ∃ k v, kfind st.1 k = none ∧ (k = parent ∨ k ∈ span) ∧
        processSpan parent st span = (kset st.1 k v, true) := by
  obtain ⟨m, b⟩ := st
  by_cases hC1 : (kfind m parent).isSome = true ∧
      (span.filter (fun e => (kfind m e).isNone)).length = 1
  · obtain ⟨hs, hl⟩ := hC1
    obtain ⟨pv, hp⟩ := Option.isSome_iff_exists.mp hs
    obtain ⟨u, hU⟩ := List.length_eq_one.mp hl
    have hu_mem : u ∈ span.filter (fun e => (kfind m e).isNone) := by
      rw [hU]
      exact List.mem_singleton_self u
    have hu_none : kfind m u = none := by
      have h2 := (List.mem_filter.mp hu_mem).2
      rwa [Option.isNone_iff_eq_none] at h2
    refine Or.inr ⟨u,
      pv - ((span.filter (fun e => decide (e ≠ u))).map (fun e => (kfind m e).getD 0)).sum,
      hu_none, Or.inr (List.mem_of_mem_filter hu_mem), ?_⟩
    exact processSpan_difference m b parent span pv u hp hU
  · by_cases hC2 : kfind m parent = none ∧ span.filter (fun e => (kfind m e).isNone) = []
    · obtain ⟨hp, hU⟩ := hC2
      refine Or.inr ⟨parent, (span.map (fun e => (kfind m e).getD 0)).sum, hp,
        Or.inl rfl, ?_⟩
      exact processSpan_union m b parent span hp hU
    · left
      unfold processSpan
      dsimp only
      rw [if_neg hC1]
      dsimp only
      rw [if_neg hC2]

theorem processSpan_evolves (parent : Statement) (st : KMap × Bool)
    (span : List Statement) :
    Evolves (insert parent span.toFinset) st (processSpan parent st span) := by
  rcases processSpan_cases parent st span with heq | ⟨k, v, hk, hloc, heq⟩
  · rw [heq]
    exact Evolves.refl _ _
  · rw [heq]
    refine Or.inr ⟨rfl, ?_, ?_, ?_⟩
    · intro s w hw
      dsimp only
      rw [kfind_kset, if_neg ?_]
      · exact hw
      · intro hks
        rw [hks, hw] at hk
        exact Option.noConfusion hk
    · dsimp only
      rw [keysF_kset]
      refine Finset.ssubset_insert ?_
      rw [← kfind_eq_none_iff]
      exact hk
    · dsimp only
      rw [keysF_kset]
      intro z hz
      rcases Finset.mem_insert.mp hz with rfl | hz'
      · rcases hloc with rfl | hmem
        · exact Finset.mem_union_right _ (Finset.mem_insert_self _ _)
        · exact Finset.mem_union_right _
            (Finset.mem_insert_of_mem (List.mem_toFinset.mpr hmem))
      · exact Finset.mem_union_left _ hz'

theorem mem_insertByCard {a x : Statement} {l : List Statement} :
    a ∈ insertByCard x l ↔ a = x ∨ a ∈ l := by
  induction l with
  | nil => simp [insertByCard]
  | cons y ys ih =>
    unfold insertByCard
    by_cases h : x.variables.card ≤ y.variables.card
    · rw [if_pos h]
      simp
    · rw [if_neg h]
      simp only [List.mem_cons, ih]
      tauto

theorem mem_sortByCard {a : Statement} {l : List Statement} :
    a ∈ sortByCard l ↔ a ∈ l := by
  induction l with
  | nil => simp [sortByCard]
  | cons x xs ih =>
    unfold sortByCard
    rw [mem_insertByCard, ih, List.mem_cons]

theorem mem_of_mem_groupByKey {key : Statement → Nat} :
    ∀ {l : List Statement} {g : List Statement}, g ∈ groupByKey key l →
      ∀ {a : Statement}, a ∈ g → a ∈ l := by
  intro l
  induction l with
  | nil => intro g hg; simp [groupByKey] at hg
  | cons x xs ih =>
    intro g hg a ha
    rw [groupByKey] at hg
    rcases hrec : groupByKey key xs with _ | ⟨g0, rest⟩
    · rw [hrec] at hg
      simp only [List.mem_singleton] at hg
      subst hg
      simp only [List.mem_singleton] at ha
      exact ha ▸ List.mem_cons_self x xs
    · rw [hrec] at hg
      rcases g0 with _ | ⟨y, ys⟩
      · simp only [List.mem_cons] at hg
        rcases hg with rfl | hg
        · simp only [List.mem_singleton] at ha
          exact ha ▸ List.mem_cons_self x xs
        · rcases hg with rfl | hg
          · simp at ha
          · exact List.mem_cons_of_mem x (ih (hrec ▸ List.mem_cons_of_mem _ hg) ha)
      · dsimp only at hg
        by_cases hk : key x = key y
        · rw [if_pos hk] at hg
          rcases List.mem_cons.mp hg with rfl | hg
          · rcases List.mem_cons.mp ha with rfl | ha'
            · exact List.mem_cons_self a xs
            · exact List.mem_cons_of_mem x
                (ih (hrec ▸ List.mem_cons_self (y :: ys) rest) ha')
          · exact List.mem_cons_of_mem x (ih (hrec ▸ List.mem_cons_of_mem _ hg) ha)
        · rw [if_neg hk] at hg
          rcases List.mem_cons.mp hg with rfl | hg
          · simp only [List.mem_singleton] at ha
            exact ha ▸ List.mem_cons_self x xs
          · exact List.mem_cons_of_mem x (ih (hrec ▸ hg) ha)

theorem mem_addToSpans {k : Finset Variable} {g : Statement}
    {acc : List (Finset Variable × List Statement)} {kv : Finset Variable × List Statement}
    (h : kv ∈ addToSpans k g acc) {a : Statement} (ha : a ∈ kv.2) :
    a = g ∨ ∃ kv' ∈ acc, a ∈ kv'.2 := by
  induction acc generalizing kv with
  | nil =>
    simp only [addToSpans, List.mem_singleton] at h
    subst h
    simp only [List.mem_singleton] at ha
    exact Or.inl ha
  | cons p rest ih =>
    rw [addToSpans] at h
    by_cases hpk : p.1 = k
    · rw [if_pos hpk] at h
      rcases List.mem_cons.mp h with rfl | h'
      · simp only [List.mem_append, List.mem_singleton] at ha
        rcases ha with ha' | rfl
        · exact Or.inr ⟨p, List.mem_cons_self p rest, ha'⟩
        · exact Or.inl rfl
      · exact Or.inr ⟨kv, List.mem_cons_of_mem p h', ha⟩
    · rw [if_neg hpk] at h
      rcases List.mem_cons.mp h with rfl | h'
      · exact Or.inr ⟨kv, List.mem_cons_self kv rest, ha⟩
      · rcases ih h' ha with h1 | ⟨kv', hkv', ha'⟩
        · exact Or.inl h1
        · exact Or.inr ⟨kv', List.mem_cons_of_mem p hkv', ha'⟩

theorem mem_of_mem_spansOf {group : List Statement} {sp : List Statement}
    (h : sp ∈ spansOf group) {a : Statement} (ha : a ∈ sp) : a ∈ group := by
  unfold spansOf at h
  rcases List.mem_map.mp h with ⟨kv, hkv, rfl⟩
  suffices hgen : ∀ (l : List Statement) (acc : List (Finset Variable × List Statement)),
      (∀ kv' ∈ acc, ∀ b ∈ kv'.2, b ∈ group) → (∀ x ∈ l, x ∈ group) →
      ∀ kv' ∈ l.foldl (fun acc g => addToSpans (spanOf g) g acc) acc, ∀ b ∈ kv'.2,
        b ∈ group by
    exact hgen group [] (by simp) (fun x hx => hx) kv hkv a ha
  intro l
  induction l with
  | nil => intro acc hacc _ kv' hkv' b hb; exact hacc kv' hkv' b hb
  | cons x xs ih =>
    intro acc hacc hl kv' hkv' b hb
    rw [List.foldl_cons] at hkv'
    refine ih (addToSpans (spanOf x) x acc) ?_ (fun y hy => hl y (List.mem_cons_of_mem x hy))
      kv' hkv' b hb
    intro kv'' hkv'' c hc
    rcases mem_addToSpans hkv'' hc with rfl | ⟨kv3, hkv3, hc'⟩
    · exact hl c (List.mem_cons_self c xs)
    · exact hacc kv3 hkv3 c hc'

theorem processParent_evolves (parent : Statement) (cs : List Statement)
    (st : KMap × Bool) :
    Evolves (insert parent cs.toFinset) st (processParent parent cs st) := by
  unfold processParent
  refine Evolves.foldl _ _ ?_ st
  intro acc group hgroup
  refine Evolves.foldl _ _ ?_ acc
  intro acc2 span hspan
  refine Evolves.mono ?_ (processSpan_evolves parent acc2 span)
  intro z hz
  rcases Finset.mem_insert.mp hz with rfl | hz'
  · exact Finset.mem_insert_self _ _
  · refine Finset.mem_insert_of_mem ?_
    rw [List.mem_toFinset] at hz' ⊢
    exact mem_sortByCard.mp
      (mem_of_mem_groupByKey hgroup (mem_of_mem_spansOf hspan hz'))

theorem partitionPhase_evolves (univ : List Statement)
    (children : Statement → List Statement)
    (hch : ∀ p ∈ univ, ∀ x ∈ children p, x ∈ univ) (st : KMap × Bool) :
    Evolves univ.toFinset st (partitionPhase univ children st) := by
  unfold partitionPhase
  refine Evolves.foldl _ _ ?_ st
  intro acc parent hparent
  have hpu : parent ∈ univ := List.mem_reverse.mp hparent
  refine Evolves.mono ?_ (processParent_evolves parent (children parent) acc)
  intro z hz
  rcases Finset.mem_insert.mp hz with rfl | hz'
  · exact List.mem_toFinset.mpr hpu
  · exact List.mem_toFinset.mpr (hch parent hpu z (List.mem_toFinset.mp hz'))

theorem complementUpdates_sound (m : KMap) (s : Statement) (v : ℚ)
    (h : kfind (complementUpdates m) s = some v) : kfind m s = none ∧ s ∈ invSF m := by
  rw [kfind_complementUpdates] at h
  cases hl : (m.filter (fun p => decide (p.1.variables.card = 1 ∧ invStatement p.1 = s ∧
      kfind m s = none))).getLast? with
  | none =>
    rw [hl] at h
    exact Option.noConfusion h
  | some q =>
    have hqmem := List.mem_of_getLast?_eq_some hl
    have hqf := List.mem_filter.mp hqmem
    have hT := hqf.2
    simp only [decide_eq_true_eq] at hT
    obtain ⟨hc, hinv, hg⟩ := hT
    refine ⟨hg, ?_⟩
    unfold invSF
    refine Finset.mem_image.mpr ⟨q.1, ?_, hinv⟩
    rw [Finset.mem_filter]
    constructor
    · unfold keysF
      rw [List.mem_toFinset]
      exact List.mem_map.mpr ⟨q, hqf.1, rfl⟩
    · simpa using hc

theorem complementPhase_evolves (m : KMap) :
    Evolves (invSF m) (m, false)
      (dictUpdate m (complementUpdates m), !(complementUpdates m).isEmpty) := by
  cases hupd : complementUpdates m with
  | nil => exact Or.inl rfl
  | cons q rest =>
    have hnd : KeysNodup (q :: rest) := hupd ▸ keysNodup_complementUpdates m
    have hsound : ∀ s v, kfind (q :: rest) s = some v → kfind m s = none ∧ s ∈ invSF m := by
      intro s v hv
      exact complementUpdates_sound m s v (hupd ▸ hv)
    refine Or.inr ⟨rfl, ?_, ?_, ?_⟩
    · intro s v hv
      dsimp only
      rw [kfind_dictUpdate hnd]
      cases hu : kfind (q :: rest) s with
      | none => exact hv
      | some w =>
        have := (hsound s w hu).1
        rw [this] at hv
        exact Option.noConfusion hv
    · dsimp only
      rw [keysF_dictUpdate]
      rw [Finset.ssubset_iff_of_subset Finset.subset_union_left]
      refine ⟨q.1, Finset.mem_union_right _ ?_, ?_⟩
      · unfold keysF
        rw [List.mem_toFinset]
        exact List.mem_map.mpr ⟨q, List.mem_cons_self q rest, rfl⟩
      · have hq : kfind (q :: rest) q.1 = some q.2 := by
          rw [kfind, if_pos rfl]
        have := (hsound q.1 q.2 hq).1
        rw [kfind_eq_none_iff] at this
        exact this
    · dsimp only
      rw [keysF_dictUpdate]
      refine Finset.union_subset Finset.subset_union_left ?_
      intro z hz
      rcases (mem_keysF_iff _ _).mp hz with ⟨v, hv⟩
      exact Finset.mem_union_right _ (hsound z v hv).2

theorem onePass_evolves (univ : List Statement) (children : Statement → List Statement)
    (hch : ∀ p ∈ univ, ∀ x ∈ children p, x ∈ univ) (m : KMap) :
    Evolves (invSF m ∪ univ.toFinset) (m, false) (onePass univ children m) := by
  unfold onePass
  refine Evolves.trans
    (Evolves.mono Finset.subset_union_left (complementPhase_evolves m)) ?_
  exact Evolves.mono Finset.subset_union_right
    (partitionPhase_evolves univ children hch _)

theorem processSpan_preserves (parent : Statement) (st : KMap × Bool)
    (span : List Statement) (s : Statement) (v : ℚ) (h : kfind st.1 s = some v) :
    kfind (processSpan parent st span).1 s = some v := by
  rcases processSpan_cases parent st span with heq | ⟨k, w, hk, _, heq⟩
  · rw [heq]
    exact h
  · rw [heq]
    dsimp only
    rw [kfind_kset, if_neg ?_]
    · exact h
    · intro hks
      rw [hks, h] at hk
      exact Option.noConfusion hk

theorem foldl_preserves {α : Type} (f : (KMap × Bool) → α → (KMap × Bool)) (l : List α)
    (hf : ∀ (acc : KMap × Bool) (x : α) (s : Statement) (v : ℚ),
      kfind acc.1 s = some v → kfind (f acc x).1 s = some v) :
    ∀ (st : KMap × Bool) (s : Statement) (v : ℚ), kfind st.1 s = some v →
      kfind (l.foldl f st).1 s = some v := by
  induction l with
  | nil => intro st s v h; exact h
  | cons x xs ih =>
    intro st s v h
    rw [List.foldl_cons]
    exact ih (f st x) s v (hf st x s v h)

theorem partitionPhase_preserves (univ : List Statement)
    (children : Statement → List Statement) (st : KMap × Bool) (s : Statement) (v : ℚ)
    (h : kfind st.1 s = some v) : kfind (partitionPhase univ children st).1 s = some v := by
  unfold partitionPhase
  refine foldl_preserves _ _ ?_ st s v h
  intro acc parent s' v' h'
  unfold processParent
  refine foldl_preserves _ _ ?_ acc s' v' h'
  intro acc2 group s'' v'' h''
  exact foldl_preserves _ _ (fun a sp s3 v3 h3 => processSpan_preserves parent a sp s3 v3 h3)
    acc2 s'' v'' h''

theorem onePass_preserves (univ : List Statement) (children : Statement → List Statement)
    (m : KMap) (s : Statement) (v : ℚ) (h : kfind m s = some v) :
    kfind (onePass univ children m).1 s = some v := by
  unfold onePass
  refine partitionPhase_preserves univ children _ s v ?_
  exact (complementPhase_evolves m).preserves s v h

theorem solveLoop_preserves (univ : List Statement) (children : Statement → List Statement)
    (fuel : Nat) (m : KMap) (s : Statement) (v : ℚ) (h : kfind m s = some v) :
    kfind (solveLoop univ children fuel m) s = some v := by
  induction fuel generalizing m with
  | zero => exact h
  | succ fuel ih =>
    unfold solveLoop
    dsimp only
    by_cases hc : (onePass univ children m).2 = true
    · rw [if_pos hc]
      exact ih _ (onePass_preserves univ children m s v h)
    · rw [if_neg hc]
      exact onePass_preserves univ children m s v h

/-- C7: during propagation the known-value mapping only gains entries:
every span-group step either leaves the mapping untouched or writes a
single key that is not yet present (never overwriting), and
consequently every entry present before a pass — or before any number
of passes of the solver loop — is still present, with the same value,
afterwards; the key set is non-decreasing. -/
theorem c7_known_map_monotone :
    (∀ (parent : Statement) (st : KMap × Bool) (span : List Statement),
        processSpan parent st span = st ∨
          ∃ k v, kfind st.1 k = none ∧ processSpan parent st span = (kset st.1 k v, true)) ∧
      (∀ (univ : List Statement) (children : Statement → List Statement) (m : KMap)
        (s : Statement) (v : ℚ), kfind m s = some v →
        kfind (onePass univ children m).1 s = some v) ∧
      (∀ (univ : List Statement) (children : Statement → List Statement) (fuel : Nat)
        (m : KMap) (s : Statement) (v : ℚ), kfind m s = some v →
        kfind (solveLoop univ children fuel m) s = some v) := by
  refine ⟨?_, onePass_preserves, solveLoop_preserves⟩
  intro parent st span
  rcases processSpan_cases parent st span with heq | ⟨k, v, hk, _, heq⟩
  · exact Or.inl heq
  · exact Or.inr ⟨k, v, hk, heq⟩

theorem c7_known_map_monotone_witness :
    kfind (solveLoop (allStatements [varA]) (buildChildren (allStatements [varA])) 3
      [(stA, 7)]) stA = some 7 :=
  c7_known_map_monotone.2.2 (allStatements [varA]) (buildChildren (allStatements [varA]))
    3 [(stA, 7)] stA 7 (by decide)

/-! ### The pass counter and termination (claim C8) -/

theorem singleton_mem_allStatements {symbols : List Variable} {x : Variable}
    (h : x ∈ allSymbols symbols) : Statement.mk {x} ∈ allStatements symbols := by
  rw [mem_allStatements]
  refine ⟨?_, by simp, ?_⟩
  · intro z hz
    rcases Finset.mem_singleton.mp hz with rfl
    exact List.mem_toFinset.mpr h
  · rw [Statement.is_valid_iff]
    intro e he
    rcases Finset.mem_singleton.mp he with rfl
    intro hc
    exact Variable.invert_ne e (Finset.mem_singleton.mp hc)

theorem univ_closed_under_inv {symbols : List Variable} {t : Statement}
    (h : t ∈ allStatements symbols) (hc : t.variables.card = 1) :
    invStatement t ∈ allStatements symbols := by
  obtain ⟨e, rfl⟩ := vars_eq_singleton_of_card_one hc
  rw [invStatement_mk_singleton]
  have he : e ∈ allSymbols symbols := by
    have := ((mem_allStatements _ _).mp h).1
    have hmem : e ∈ litFinset symbols := this (by simp)
    exact List.mem_toFinset.mp hmem
  exact singleton_mem_allStatements (invert_mem_allSymbols he)

theorem buildChildren_mem_univ (univ : List Statement) :
    ∀ p ∈ univ, ∀ x ∈ buildChildren univ p, x ∈ univ := by
  intro p _ x hx
  exact ((mem_buildChildren univ x p).mp hx).1

theorem complementUpdates_eq_nil_of_closed (m : KMap)
    (h : ∀ q ∈ m, q.1.variables.card = 1 → kfind m (invStatement q.1) ≠ none) :
    complementUpdates m = [] := by
  unfold complementUpdates
  suffices hgen : ∀ (l : List (Statement × ℚ)), (∀ q ∈ l, q.1.variables.card = 1 →
      kfind m (invStatement q.1) ≠ none) → ∀ upd, l.foldl (complementStep m) upd = upd by
    exact hgen m h []
  intro l
  induction l with
  | nil => intro _ upd; rfl
  | cons q rest ih =>
    intro hl upd
    rw [List.foldl_cons]
    have hstep : complementStep m upd q = upd := by
      unfold complementStep
      by_cases hc : q.1.variables.card = 1
      · rw [if_pos hc]
        rw [if_neg (hl q (List.mem_cons_self q rest) hc)]
      · rw [if_neg hc]
    rw [hstep]
    exact ih (fun q' hq' => hl q' (List.mem_cons_of_mem q hq')) upd

theorem mem_keysF_exists_entry {m : KMap} {s : Statement} (h : s ∈ keysF m) :
    ∃ q ∈ m, q.1 = s := by
  unfold keysF at h
  rcases List.mem_map.mp (List.mem_toFinset.mp h) with ⟨q, hq, hqs⟩
  exact ⟨q, hq, hqs⟩

theorem complementPhase_closes (m : KMap) {s : Statement} (h : s ∈ keysF m)
    (hc : s.variables.card = 1) :
    invStatement s ∈ keysF (dictUpdate m (complementUpdates m)) := by
  rw [keysF_dictUpdate]
  by_cases hg : kfind m (invStatement s) = none
  · refine Finset.mem_union_right _ ?_
    rcases mem_keysF_exists_entry h with ⟨q, hq, hqs⟩
    have hfil : q ∈ m.filter (fun p => decide (p.1.variables.card = 1 ∧
        invStatement p.1 = invStatement s ∧ kfind m (invStatement s) = none)) := by
      rw [List.mem_filter]
      refine ⟨hq, ?_⟩
      simp only [decide_eq_true_eq]
      exact ⟨hqs ▸ hc, by rw [hqs], hg⟩
    have hne := List.ne_nil_of_mem hfil
    rw [mem_keysF_iff]
    rw [kfind_complementUpdates]
    cases hl : (m.filter (fun p => decide (p.1.variables.card = 1 ∧
        invStatement p.1 = invStatement s ∧ kfind m (invStatement s) = none))).getLast? with
    | none =>
      rw [List.getLast?_eq_none_iff] at hl
      exact absurd hl hne
    | some q' => exact ⟨1 - q'.2, rfl⟩
  · refine Finset.mem_union_left _ ?_
    rw [mem_keysF_iff]
    cases hk : kfind m (invStatement s) with
    | none => exact absurd hk hg
    | some v => exact ⟨v, rfl⟩

theorem mem_invSF_iff {m : KMap} {z : Statement} :
    z ∈ invSF m ↔ ∃ t ∈ keysF m, t.variables.card = 1 ∧ invStatement t = z := by
  unfold invSF
  simp only [Finset.mem_image, Finset.mem_filter]
  constructor
  · rintro ⟨t, ⟨ht, hc⟩, rfl⟩
    exact ⟨t, ht, by simpa using hc, rfl⟩
  · rintro ⟨t, ht, hc, rfl⟩
    exact ⟨t, ⟨ht, by simpa using hc⟩, rfl⟩

theorem keysF_mono_dictUpdate (m u : KMap) : keysF m ⊆ keysF (dictUpdate m u) := by
  rw [keysF_dictUpdate]
  exact Finset.subset_union_left

theorem Evolves.with_bound {A B : Finset Statement} {st st' : KMap × Bool}
    (h : Evolves A st st') (hb : keysF st'.1 ⊆ keysF st.1 ∪ B) : Evolves B st st' := by
  rcases h with rfl | ⟨hf, hp, hs, _⟩
  · exact Or.inl rfl
  · exact Or.inr ⟨hf, hp, hs, hb⟩

theorem onePass_singletonClosed (univ : List Statement)
    (children : Statement → List Statement)
    (hch : ∀ p ∈ univ, ∀ x ∈ children p, x ∈ univ) (m : KMap) :
    SingletonClosed univ (onePass univ children m).1 := by
  intro s hs hc
  have hpp := partitionPhase_evolves univ children hch
    (dictUpdate m (complementUpdates m), !(complementUpdates m).isEmpty)
  have hkeys : keysF (onePass univ children m).1 ⊆
      keysF (dictUpdate m (complementUpdates m)) ∪ univ.toFinset := by
    have := hpp.bound
    exact this
  have hmono : keysF (dictUpdate m (complementUpdates m)) ⊆
      keysF (onePass univ children m).1 := by
    have := hpp.keys_mono
    exact this
  rcases Finset.mem_union.mp (hkeys hs) with h1 | h1
  · rw [keysF_dictUpdate] at h1
    rcases Finset.mem_union.mp h1 with h2 | h2
    · right
      exact hmono (complementPhase_closes m h2 hc)
    · right
      rcases (mem_keysF_iff _ _).mp h2 with ⟨v, hv⟩
      rcases (complementUpdates_sound m s v hv).2 with hinv
      rcases mem_invSF_iff.mp hinv with ⟨t, ht, htc, hts⟩
      have : invStatement s = t := by
        rw [← hts, invStatement_invStatement]
      rw [this]
      exact hmono (keysF_mono_dictUpdate m _ ht)
  · exact Or.inl h1

theorem onePass_evolves_univ (univ : List Statement)
    (children : Statement → List Statement)
    (hch : ∀ p ∈ univ, ∀ x ∈ children p, x ∈ univ)
    (hinv : ∀ t ∈ univ, t.variables.card = 1 → invStatement t ∈ univ)
    (m : KMap) (hclosed : SingletonClosed univ m) :
    Evolves univ.toFinset (m, false) (onePass univ children m) := by
  have hcomp : Evolves univ.toFinset (m, false)
      (dictUpdate m (complementUpdates m), !(complementUpdates m).isEmpty) := by
    refine (complementPhase_evolves m).with_bound ?_
    dsimp only
    rw [keysF_dictUpdate]
    refine Finset.union_subset Finset.subset_union_left ?_
    intro z hz
    rcases (mem_keysF_iff _ _).mp hz with ⟨v, hv⟩
    have hsound := complementUpdates_sound m z v hv
    rcases mem_invSF_iff.mp hsound.2 with ⟨t, ht, htc, hts⟩
    rcases hclosed t ht htc with h1 | h1
    · refine Finset.mem_union_right _ ?_
      rw [← hts]
      exact List.mem_toFinset.mpr
        (hinv t (List.mem_toFinset.mp h1) htc)
    · exfalso
      rw [hts] at h1
      rw [kfind_eq_none_iff] at hsound
      exact hsound.1 h1
  unfold onePass
  exact Evolves.trans hcomp (partitionPhase_evolves univ children hch _)

theorem processSpan_flag_arg (parent : Statement) (m : KMap) (b : Bool)
    (span : List Statement) :
    processSpan parent (m, b) span =
      ((processSpan parent (m, false) span).1,
        b || (processSpan parent (m, false) span).2) := by
  unfold processSpan
  dsimp only
  by_cases hC1 : (kfind m parent).isSome = true ∧
      (span.filter (fun e => (kfind m e).isNone)).length = 1
  · rw [if_pos hC1, if_pos hC1]
    by_cases hC2 : kfind (kset m (span.filter (fun e => (kfind m e).isNone)).headI
        ((kfind m parent).getD 0 -
          ((span.filter (fun e =>
            decide (e ≠ (span.filter (fun e => (kfind m e).isNone)).headI))).map
            (fun e => (kfind m e).getD 0)).sum)) parent = none ∧
        span.filter (fun e => (kfind m e).isNone) = []
    · rw [if_pos hC2]
      simp
    · rw [if_neg hC2]
      simp
  · rw [if_neg hC1, if_neg hC1]
    dsimp only
    by_cases hC2 : kfind m parent = none ∧ span.filter (fun e => (kfind m e).isNone) = []
    · rw [if_pos hC2, if_pos hC2]
      simp
    · rw [if_neg hC2, if_neg hC2]
      simp

theorem foldl_flag_arg {α : Type} (f : (KMap × Bool) → α → KMap × Bool)
    (hf : ∀ (m : KMap) (b : Bool) (x : α),
      f (m, b) x = ((f (m, false) x).1, b || (f (m, false) x).2)) :
    ∀ (l : List α) (m : KMap) (b : Bool),
      l.foldl f (m, b) = ((l.foldl f (m, false)).1, b || (l.foldl f (m, false)).2) := by
  intro l
  induction l with
  | nil => intro m b; simp
  | cons x xs ih =>
    intro m b
    rw [List.foldl_cons, List.foldl_cons, hf m b x, hf m false x]
    simp only [Bool.false_or]
    rw [ih (f (m, false) x).1 (b || (f (m, false) x).2),
      ih (f (m, false) x).1 (f (m, false) x).2]
    simp [Bool.or_assoc]

theorem processParent_flag_arg (parent : Statement) (cs : List Statement) (m : KMap)
    (b : Bool) :
    processParent parent cs (m, b) =
      ((processParent parent cs (m, false)).1,
        b || (processParent parent cs (m, false)).2) := by
  unfold processParent
  refine foldl_flag_arg _ ?_ _ m b
  intro m' b' group
  exact foldl_flag_arg _ (fun m'' b'' span => processSpan_flag_arg parent m'' b'' span) _
    m' b'

theorem partitionPhase_flag_arg (univ : List Statement)
    (children : Statement → List Statement) (m : KMap) (b : Bool) :
    partitionPhase univ children (m, b) =
      ((partitionPhase univ children (m, false)).1,
        b || (partitionPhase univ children (m, false)).2) := by
  unfold partitionPhase
  refine foldl_flag_arg _ ?_ _ m b
  intro m' b' parent
  exact processParent_flag_arg parent (children parent) m' b'

theorem onePass_is_partitionPhase (univ : List Statement)
    (children : Statement → List Statement) (m : KMap) :
    onePass univ children m =
      partitionPhase univ children
        (dictUpdate m (complementUpdates m), !(complementUpdates m).isEmpty) := rfl

theorem pass2_no_change (univ : List Statement) (children : Statement → List Statement)
    (hch : ∀ p ∈ univ, ∀ x ∈ children p, x ∈ univ) (m0 : KMap)
    (hB : keysF (onePass univ children m0).1 ∩ univ.toFinset ⊆ keysF m0) :
    (onePass univ children (onePass univ children m0).1).2 = false := by
  have hPP1 : partitionPhase univ children
      (dictUpdate m0 (complementUpdates m0), !(complementUpdates m0).isEmpty) =
      (dictUpdate m0 (complementUpdates m0), !(complementUpdates m0).isEmpty) := by
    rcases partitionPhase_evolves univ children hch
        (dictUpdate m0 (complementUpdates m0), !(complementUpdates m0).isEmpty) with
      heq | ⟨_, _, hs, hbd⟩
    · exact heq
    · exfalso
      obtain ⟨z, hz1, hz2⟩ := Finset.exists_of_ssubset hs
      have hz_univ : z ∈ univ.toFinset := by
        rcases Finset.mem_union.mp (hbd hz1) with h | h
        · exact absurd h hz2
        · exact h
      have hz_pass : z ∈ keysF (onePass univ children m0).1 := by
        rw [onePass_is_partitionPhase]
        exact hz1
      have := hB (Finset.mem_inter.mpr ⟨hz_pass, hz_univ⟩)
      exact hz2 (keysF_mono_dictUpdate m0 (complementUpdates m0) this)
  have hm1 : (onePass univ children m0).1 = dictUpdate m0 (complementUpdates m0) := by
    rw [onePass_is_partitionPhase, hPP1]
  have hclosed : ∀ q ∈ dictUpdate m0 (complementUpdates m0), q.1.variables.card = 1 →
      kfind (dictUpdate m0 (complementUpdates m0)) (invStatement q.1) ≠ none := by
    intro q hq hc
    have hqk : q.1 ∈ keysF (dictUpdate m0 (complementUpdates m0)) := by
      unfold keysF
      rw [List.mem_toFinset]
      exact List.mem_map.mpr ⟨q, hq, rfl⟩
    rw [keysF_dictUpdate] at hqk
    have hinv_mem : invStatement q.1 ∈ keysF (dictUpdate m0 (complementUpdates m0)) := by
      rcases Finset.mem_union.mp hqk with h1 | h1
      · exact complementPhase_closes m0 h1 hc
      · rcases (mem_keysF_iff _ _).mp h1 with ⟨v, hv⟩
        rcases mem_invSF_iff.mp (complementUpdates_sound m0 q.1 v hv).2 with
          ⟨t, ht, htc, hts⟩
        have : invStatement q.1 = t := by
          rw [← hts, invStatement_invStatement]
        rw [this]
        exact keysF_mono_dictUpdate m0 _ ht
    intro hcon
    rw [kfind_eq_none_iff] at hcon
    exact hcon hinv_mem
  have hupd2 : complementUpdates (dictUpdate m0 (complementUpdates m0)) = [] :=
    complementUpdates_eq_nil_of_closed _ hclosed
  rw [hm1, onePass_is_partitionPhase, hupd2]
  have hid : dictUpdate (dictUpdate m0 (complementUpdates m0)) ([] : KMap) =
      dictUpdate m0 (complementUpdates m0) := rfl
  rw [hid]
  have hfalse : (!([] : KMap).isEmpty) = false := rfl
  rw [hfalse]
  have hPPfalse1 : (partitionPhase univ children
      (dictUpdate m0 (complementUpdates m0), false)).1 =
      dictUpdate m0 (complementUpdates m0) := by
    have harg := partitionPhase_flag_arg univ children
      (dictUpdate m0 (complementUpdates m0)) (!(complementUpdates m0).isEmpty)
    have h1 := congrArg Prod.fst harg
    dsimp only at h1
    have h2 := congrArg Prod.fst hPP1
    dsimp only at h2
    rw [h1] at h2
    exact h2
  rcases partitionPhase_evolves univ children hch
      (dictUpdate m0 (complementUpdates m0), false) with heq | ⟨_, _, hs, _⟩
  · rw [heq]
  · exfalso
    rw [hPPfalse1] at hs
    exact (Finset.ssubset_iff_subset_ne.mp hs).2 rfl

theorem iterate_keys_bound (univ : List Statement) (children : Statement → List Statement)
    (hch : ∀ p ∈ univ, ∀ x ∈ children p, x ∈ univ)
    (hinv : ∀ t ∈ univ, t.variables.card = 1 → invStatement t ∈ univ) (m0 : KMap) :
    ∀ k, keysF ((fun m => (onePass univ children m).1)^[k] m0) ⊆
        keysF m0 ∪ invSF m0 ∪ univ.toFinset ∧
      invSF ((fun m => (onePass univ children m).1)^[k] m0) ⊆
        keysF m0 ∪ invSF m0 ∪ univ.toFinset := by
  intro k
  induction k with
  | zero =>
    constructor
    · exact (Finset.subset_union_left).trans Finset.subset_union_left |>.trans
        (Finset.Subset.refl _)
    · intro z hz
      exact Finset.mem_union_left _ (Finset.mem_union_right _ hz)
  | succ k ih =>
    rw [Function.iterate_succ_apply']
    obtain ⟨ihk, ihinv⟩ := ih
    have hev := onePass_evolves univ children hch
      ((fun m => (onePass univ children m).1)^[k] m0)
    constructor
    · intro z hz
      rcases Finset.mem_union.mp (hev.bound hz) with h1 | h1
      · exact ihk h1
      · rcases Finset.mem_union.mp h1 with h2 | h2
        · exact ihinv h2
        · exact Finset.mem_union_right _ h2
    · intro z hz
      rcases mem_invSF_iff.mp hz with ⟨s, hs, hc, rfl⟩
      rcases Finset.mem_union.mp (hev.bound hs) with h1 | h1
      · have : invStatement s ∈
            invSF ((fun m => (onePass univ children m).1)^[k] m0) :=
          mem_invSF_iff.mpr ⟨s, h1, hc, rfl⟩
        exact ihinv this
      · rcases Finset.mem_union.mp h1 with h2 | h2
        · rcases mem_invSF_iff.mp h2 with ⟨t, ht, htc, hts⟩
          have : invStatement s = t := by
            rw [← hts, invStatement_invStatement]
          rw [this]
          exact ihk ht
        · exact Finset.mem_union_right _
            (List.mem_toFinset.mpr
              (hinv s (List.mem_toFinset.mp h2) hc))

theorem iterate_keys_growth (univ : List Statement)
    (children : Statement → List Statement)
    (hch : ∀ p ∈ univ, ∀ x ∈ children p, x ∈ univ) (m0 : KMap) :
    ∀ k, (∀ j < k, (onePass univ children
        ((fun m => (onePass univ children m).1)^[j] m0)).2 = true) →
      (keysF m0).card + k ≤
        (keysF ((fun m => (onePass univ children m).1)^[k] m0)).card := by
  intro k
  induction k with
  | zero => intro _; simp
  | succ k ih =>
    intro hall
    have hk := ih (fun j hj => hall j (by omega))
    have hev := onePass_evolves univ children hch
      ((fun m => (onePass univ children m).1)^[k] m0)
    have hstrict := hev.strict_of_flag_flip rfl (hall k (by omega))
    have hlt := Finset.card_lt_card hstrict
    dsimp only at hlt
    rw [Function.iterate_succ_apply']
    omega

theorem exists_halting_pass (univ : List Statement)
    (children : Statement → List Statement)
    (hch : ∀ p ∈ univ, ∀ x ∈ children p, x ∈ univ)
    (hinv : ∀ t ∈ univ, t.variables.card = 1 → invStatement t ∈ univ) (m0 : KMap) :
    ∃ k, (onePass univ children
      ((fun m => (onePass univ children m).1)^[k] m0)).2 = false := by
  by_contra hcon
  push_neg at hcon
  have hall : ∀ j, (onePass univ children
      ((fun m => (onePass univ children m).1)^[j] m0)).2 = true := by
    intro j
    have := hcon j
    cases h : (onePass univ children
        ((fun m => (onePass univ children m).1)^[j] m0)).2 with
    | false => exact absurd h this
    | true => rfl
  set N := (keysF m0 ∪ invSF m0 ∪ univ.toFinset).card + 1 with hN
  have hgrow := iterate_keys_growth univ children hch m0 N (fun j _ => hall j)
  have hsub := (iterate_keys_bound univ children hch hinv m0 N).1
  have hle := Finset.card_le_card hsub
  omega

theorem passes_le_universe (univ : List Statement)
    (children : Statement → List Statement)
    (hch : ∀ p ∈ univ, ∀ x ∈ children p, x ∈ univ)
    (hinv : ∀ t ∈ univ, t.variables.card = 1 → invStatement t ∈ univ)
    (hone : 1 ≤ univ.toFinset.card) (m0 : KMap) (c : Nat)
    (hall : ∀ k < c, (onePass univ children
      ((fun m => (onePass univ children m).1)^[k] m0)).2 = true) :
    c ≤ univ.toFinset.card := by
  rcases Nat.eq_zero_or_pos c with rfl | hcpos
  · exact Nat.zero_le _
  by_cases hB : keysF (onePass univ children m0).1 ∩ univ.toFinset ⊆ keysF m0
  · have h1false := pass2_no_change univ children hch m0 hB
    have hc1 : c ≤ 1 := by
      by_contra hgt
      push_neg at hgt
      have := hall 1 hgt
      rw [Function.iterate_one] at this
      rw [this] at h1false
      exact Bool.noConfusion h1false
    omega
  · have hstep0 : (keysF m0 ∩ univ.toFinset).card <
        (keysF ((fun m => (onePass univ children m).1)^[1] m0) ∩ univ.toFinset).card := by
      rw [Function.iterate_one]
      refine Finset.card_lt_card ?_
      rw [Finset.ssubset_iff_of_subset (Finset.inter_subset_inter
        ((onePass_evolves univ children hch m0).keys_mono) (Finset.Subset.refl _))]
      obtain ⟨z, hz1, hz2⟩ := Finset.not_subset.mp hB
      exact ⟨z, hz1, fun hzc => hz2 (Finset.mem_inter.mp hzc).1⟩
    have hstepk : ∀ k, 1 ≤ k → k < c →
        (keysF ((fun m => (onePass univ children m).1)^[k] m0) ∩ univ.toFinset).card <
          (keysF ((fun m => (onePass univ children m).1)^[k + 1] m0) ∩
            univ.toFinset).card := by
      intro k hk1 hkc
      obtain ⟨j, rfl⟩ : ∃ j, k = j + 1 := ⟨k - 1, by omega⟩
      have hclosed : SingletonClosed univ
          ((fun m => (onePass univ children m).1)^[j + 1] m0) := by
        rw [Function.iterate_succ_apply']
        exact onePass_singletonClosed univ children hch _
      have hev := onePass_evolves_univ univ children hch hinv _ hclosed
      have hstrict := hev.strict_of_flag_flip rfl (hall (j + 1) hkc)
      dsimp only at hstrict
      have hbound := hev.bound
      dsimp only at hbound
      obtain ⟨z, hz1, hz2⟩ := Finset.exists_of_ssubset hstrict
      refine Finset.card_lt_card ?_
      rw [Finset.ssubset_iff_of_subset (Finset.inter_subset_inter ?_
        (Finset.Subset.refl _))]
      · refine ⟨z, ?_, fun hc => hz2 (Finset.mem_inter.mp hc).1⟩
        refine Finset.mem_inter.mpr ⟨?_, ?_⟩
        · rw [Function.iterate_succ_apply' (fun m => (onePass univ children m).1) (j + 1)]
          exact hz1
        · rcases Finset.mem_union.mp (hbound hz1) with h | h
          · exact absurd h hz2
          · exact h
      · have := hev.keys_mono
        dsimp only at this
        rw [Function.iterate_succ_apply' (fun m => (onePass univ children m).1) (j + 1)]
        exact this
    have hphi : ∀ k, k ≤ c →
        k ≤ (keysF ((fun m => (onePass univ children m).1)^[k] m0) ∩
          univ.toFinset).card := by
      intro k
      induction k with
      | zero => intro _; exact Nat.zero_le _
      | succ k ih =>
        intro hkc
        have hk := ih (by omega)
        rcases Nat.eq_zero_or_pos k with rfl | hk1
        · have := hstep0
          simp only [Nat.zero_add]
          omega
        · have := hstepk k hk1 (by omega)
          omega
    have hc := hphi c (le_refl c)
    have hle : (keysF ((fun m => (onePass univ children m).1)^[c] m0) ∩
        univ.toFinset).card ≤ univ.toFinset.card :=
      Finset.card_le_card Finset.inter_subset_right
    omega

theorem onePass_map_eq_of_not_changed (univ : List Statement)
    (children : Statement → List Statement)
    (hch : ∀ p ∈ univ, ∀ x ∈ children p, x ∈ univ) (m : KMap)
    (h : (onePass univ children m).2 = false) : (onePass univ children m).1 = m := by
  have := (onePass_evolves univ children hch m).eq_of_flag_false h
  exact congrArg Prod.fst this

theorem solveLoop_eq_iterate (univ : List Statement)
    (children : Statement → List Statement)
    (hch : ∀ p ∈ univ, ∀ x ∈ children p, x ∈ univ) :
    ∀ (c fuel : Nat) (m : KMap),
      (∀ k < c, (onePass univ children
        ((fun m => (onePass univ children m).1)^[k] m)).2 = true) →
      (onePass univ children ((fun m => (onePass univ children m).1)^[c] m)).2 = false →
      c < fuel →
      solveLoop univ children fuel m = (fun m => (onePass univ children m).1)^[c] m := by
  intro c
  induction c with
  | zero =>
    intro fuel m _ hstop hfuel
    cases fuel with
    | zero => omega
    | succ fuel =>
      unfold solveLoop
      dsimp only
      rw [Function.iterate_zero_apply] at hstop
      rw [if_neg (by rw [hstop]; exact Bool.noConfusion)]
      rw [Function.iterate_zero_apply]
      exact onePass_map_eq_of_not_changed univ children hch m hstop
  | succ c ih =>
    intro fuel m hall hstop hfuel
    cases fuel with
    | zero => omega
    | succ fuel =>
      unfold solveLoop
      dsimp only
      have h0 : (onePass univ children m).2 = true := by
        have := hall 0 (by omega)
        rwa [Function.iterate_zero_apply] at this
      rw [if_pos h0]
      have hshift : ∀ k, (fun m => (onePass univ children m).1)^[k]
          ((onePass univ children m).1) =
          (fun m => (onePass univ children m).1)^[k + 1] m := by
        intro k
        rw [Function.iterate_succ_apply]
      rw [ih fuel (onePass univ children m).1 ?_ ?_ (by omega)]
      · rw [hshift c]
      · intro k hk
        rw [hshift k]
        exact hall (k + 1) (by omega)
      · rw [hshift c]
        exact hstop

/-- C8 counterexample: with an *empty* variable list the universe has
size `0 = 3 ^ 0 - 1`, yet an input statement over an unrelated token
makes the very first pass fire the complement rule, so the first pass
changes the mapping — at least one changing pass, which exceeds the
size of the universe.  The claimed bound therefore fails as stated. -/
theorem c8_pass_bound_counterexample :
    (allStatements ([] : List Variable)).length = 0 ∧
      (onePass (allStatements []) (buildChildren (allStatements []))
        (initKnown [({varB}, 3)])).2 = true := by
  constructor
  · rfl
  · decide

/-- C8 amended: *provided the variable list is non-empty* (the claimed
bound fails for the empty list, see the counterexample), the solver
loop terminates: there is a pass count `c`, at most the size of the
universe, such that every earlier pass reports a change (and hence, by
the monotonicity results, adds at least one new entry), pass `c + 1`
reports no change and leaves the mapping untouched, and `solve`
returns exactly the mapping after those `c` changing passes — i.e. the
loop halts at the first pass that adds no new entry. -/
theorem c8_loop_terminates (symbols : List Variable)
    (input_data : List (Finset Variable × ℚ)) (hne : symbols ≠ []) :
    ∃ c, c ≤ (allStatements symbols).length ∧
      (∀ k < c, (onePass (allStatements symbols) (buildChildren (allStatements symbols))
        ((fun m => (onePass (allStatements symbols)
          (buildChildren (allStatements symbols)) m).1)^[k]
          (initKnown input_data))).2 = true) ∧
      (onePass (allStatements symbols) (buildChildren (allStatements symbols))
        ((fun m => (onePass (allStatements symbols)
          (buildChildren (allStatements symbols)) m).1)^[c]
          (initKnown input_data))).2 = false ∧
      (onePass (allStatements symbols) (buildChildren (allStatements symbols))
        ((fun m => (onePass (allStatements symbols)
          (buildChildren (allStatements symbols)) m).1)^[c]
          (initKnown input_data))).1 =
        (fun m => (onePass (allStatements symbols)
          (buildChildren (allStatements symbols)) m).1)^[c] (initKnown input_data) ∧
      solve symbols input_data =
        (fun m => (onePass (allStatements symbols)
          (buildChildren (allStatements symbols)) m).1)^[c] (initKnown input_data) := by
  have hch := buildChildren_mem_univ (allStatements symbols)
  have hinv : ∀ t ∈ allStatements symbols, t.variables.card = 1 →
      invStatement t ∈ allStatements symbols :=
    fun t ht hc => univ_closed_under_inv ht hc
  obtain ⟨v, hv⟩ := List.exists_mem_of_ne_nil symbols hne
  have hone : 1 ≤ (allStatements symbols).toFinset.card := by
    refine Finset.card_pos.mpr ⟨Statement.mk {v}, ?_⟩
    exact List.mem_toFinset.mpr
      (singleton_mem_allStatements ((mem_allSymbols symbols v).mpr (Or.inl hv)))
  have hex := exists_halting_pass (allStatements symbols)
    (buildChildren (allStatements symbols)) hch hinv (initKnown input_data)
  refine ⟨Nat.find hex, ?_, ?_, Nat.find_spec hex, ?_, ?_⟩
  · have hall : ∀ k < Nat.find hex,
        (onePass (allStatements symbols) (buildChildren (allStatements symbols))
          ((fun m => (onePass (allStatements symbols)
            (buildChildren (allStatements symbols)) m).1)^[k]
            (initKnown input_data))).2 = true := by
      intro k hk
      have hmin := Nat.find_min hex hk
      cases h : (onePass (allStatements symbols) (buildChildren (allStatements symbols))
          ((fun m => (onePass (allStatements symbols)
            (buildChildren (allStatements symbols)) m).1)^[k]
            (initKnown input_data))).2 with
      | false => exact absurd h hmin
      | true => rfl
    refine le_trans (passes_le_universe (allStatements symbols)
      (buildChildren (allStatements symbols)) hch hinv hone (initKnown input_data)
      (Nat.find hex) hall) ?_
    exact List.toFinset_card_le _
  · intro k hk
    have hmin := Nat.find_min hex hk
    cases h : (onePass (allStatements symbols) (buildChildren (allStatements symbols))
        ((fun m => (onePass (allStatements symbols)
          (buildChildren (allStatements symbols)) m).1)^[k]
          (initKnown input_data))).2 with
    | false => exact absurd h hmin
    | true => rfl
  · exact onePass_map_eq_of_not_changed _ _ hch _ (Nat.find_spec hex)
  · have hall : ∀ k < Nat.find hex,
        (onePass (allStatements symbols) (buildChildren (allStatements symbols))
          ((fun m => (onePass (allStatements symbols)
            (buildChildren (allStatements symbols)) m).1)^[k]
            (initKnown input_data))).2 = true := by
      intro k hk
      have hmin := Nat.find_min hex hk
      cases h : (onePass (allStatements symbols) (buildChildren (allStatements symbols))
          ((fun m => (onePass (allStatements symbols)
            (buildChildren (allStatements symbols)) m).1)^[k]
            (initKnown input_data))).2 with
      | false => exact absurd h hmin
      | true => rfl
    have hcbound : Nat.find hex ≤ (allStatements symbols).length :=
      le_trans (passes_le_universe (allStatements symbols)
        (buildChildren (allStatements symbols)) hch hinv hone (initKnown input_data)
        (Nat.find hex) hall) (List.toFinset_card_le _)
    have hsolve : solve symbols input_data =
        solveLoop (allStatements symbols) (buildChildren (allStatements symbols))
          ((allStatements symbols).length + input_data.length + 1)
          (initKnown input_data) := rfl
    rw [hsolve]
    exact solveLoop_eq_iterate (allStatements symbols)
      (buildChildren (allStatements symbols)) hch (Nat.find hex)
      ((allStatements symbols).length + input_data.length + 1) (initKnown input_data)
      hall (Nat.find_spec hex) (by omega)

theorem c8_loop_terminates_witness :
    ∃ c, c ≤ (allStatements [varA]).length ∧
      (∀ k < c, (onePass (allStatements [varA]) (buildChildren (allStatements [varA]))
        ((fun m => (onePass (allStatements [varA])
          (buildChildren (allStatements [varA])) m).1)^[k]
          (initKnown [({varA}, 7)]))).2 = true) ∧
      (onePass (allStatements [varA]) (buildChildren (allStatements [varA]))
        ((fun m => (onePass (allStatements [varA])
          (buildChildren (allStatements [varA])) m).1)^[c]
          (initKnown [({varA}, 7)]))).2 = false ∧
      (onePass (allStatements [varA]) (buildChildren (allStatements [varA]))
        ((fun m => (onePass (allStatements [varA])
          (buildChildren (allStatements [varA])) m).1)^[c]
          (initKnown [({varA}, 7)]))).1 =
        (fun m => (onePass (allStatements [varA])
          (buildChildren (allStatements [varA])) m).1)^[c] (initKnown [({varA}, 7)]) ∧
      solve [varA] [({varA}, 7)] =
        (fun m => (onePass (allStatements [varA])
          (buildChildren (allStatements [varA])) m).1)^[c] (initKnown [({varA}, 7)]) :=
  c8_loop_terminates [varA] [({varA}, 7)] (by simp)
